import Mathlib

/-!
# Verification of the loxodo-curses Password Safe V3 vault codec

Shallow embedding of `src/loxodo_curses/vault.py`: the in-memory entities
(`Field`, `Header`, `Record`, `Vault`), the TLV field codec
(`_read_field_tlv` / `_write_field_tlv`), and the container codec
(`Vault._read_from_stream` / `Vault.write_to_stream`).

Byte strings are modelled as `List Nat` (each element a byte value).  The
cryptographic primitives the codec is built on (the Twofish block cipher,
which lives in the repository package `loxodo_curses.twofish`, and
SHA-256 / HMAC-SHA-256 / the OS RNG from the Python standard library) are
abstracted into a structure of primitive functions `Crypto`; the properties
of them that the codec relies on are collected in `GoodCrypto`.
-/

namespace Loxodo

/-- Byte strings (`bytes` in the source) as lists of naturals. -/
abbrev Bytes := List Nat

/-- `FILE_MAGIC = b'PWS3'` (vault.py line 120). -/
def FILE_MAGIC : Bytes := [0x50, 0x57, 0x53, 0x33]

/-- `END_OF_FILE = b"PWS3-EOFPWS3-EOF"` (vault.py line 121). -/
def END_OF_FILE : Bytes :=
  [0x50, 0x57, 0x53, 0x33, 0x2d, 0x45, 0x4f, 0x46,
   0x50, 0x57, 0x53, 0x33, 0x2d, 0x45, 0x4f, 0x46]

/-- `END_OF_ENTRY = 0xff` (vault.py line 118). -/
def END_OF_ENTRY : Nat := 0xff

/-- Little-endian 4-byte encoding of a value below `2^32`. -/
def u32le (n : Nat) : Bytes :=
  [n % 256, n / 256 % 256, n / 65536 % 256, n / 16777216 % 256]

/-- `struct.pack("<L", n)`: defined on `0 ≤ n < 2^32` in Python (it raises
`struct.error` outside that range); theorems about the codec consequently
carry `< 2^32` hypotheses where the exact bytes matter. -/
def packU32 (n : Nat) : Bytes := u32le (n % 4294967296)

/-- `struct.pack("<B", n)`: defined on `0 ≤ n < 256` in Python. -/
def packU8 (n : Nat) : Bytes := [n % 256]

/-- `struct.unpack("<L", bs)[0]` for a 4-byte string `bs`. -/
def unpackU32 (bs : Bytes) : Nat :=
  bs.getD 0 0 + 256 * bs.getD 1 0 + 65536 * bs.getD 2 0 + 16777216 * bs.getD 3 0

/-- Bytewise XOR of two equal-length byte strings. -/
def xorBytes (a b : Bytes) : Bytes := List.zipWith Nat.xor a b

/-- Modelled from the spec: the cryptographic primitives underneath the codec.
The Twofish block cipher is code of this repository that is not under `src/`
(package `loxodo_curses.twofish`, spec section 4.1), and SHA-256,
HMAC-SHA-256 and the OS RNG come from the Python standard library
(spec sections 4.3 and 4.4).  They are abstracted as primitive functions:
`ecbEnc`/`ecbDec` take a key and one 16-byte block, `sha256` hashes a byte
string to 32 bytes, `hmacDigest` takes the HMAC key and the concatenation of
all bytes fed through `HMAC.update`, and `urandom n` draws `n` random bytes. -/
structure Crypto where
  ecbEnc : Bytes → Bytes → Bytes
  ecbDec : Bytes → Bytes → Bytes
  sha256 : Bytes → Bytes
  hmacDigest : Bytes → Bytes → Bytes
  urandom : Nat → Bytes

/-- The facts about the primitives that the spec guarantees and the codec
relies on: ECB decryption inverts encryption blockwise, blocks keep their
16-byte size, SHA-256 and HMAC-SHA-256 digests are 32 bytes, and the RNG
returns as many bytes as requested. -/
structure GoodCrypto (c : Crypto) : Prop where
  dec_enc : ∀ k b, b.length = 16 → c.ecbDec k (c.ecbEnc k b) = b
  enc_len : ∀ k b, b.length = 16 → (c.ecbEnc k b).length = 16
  dec_len : ∀ k b, b.length = 16 → (c.ecbDec k b).length = 16
  sha_len : ∀ b, (c.sha256 b).length = 32
  hmac_len : ∀ k m, (c.hmacDigest k m).length = 32
  urandom_len : ∀ n, (c.urandom n).length = n

/-- A trivial instantiation of the primitives (identity cipher, constant
hashes, zero padding) used to evaluate the codec on concrete inputs. -/
def idCrypto : Crypto where
  ecbEnc := fun _ b => b
  ecbDec := fun _ b => b
  sha256 := fun _ => List.replicate 32 0
  hmacDigest := fun _ _ => List.replicate 32 0
  urandom := fun n => List.replicate n 0

/-- `_stretch_password(password, salt, iterations)` (vault.py lines 357-370):
`sha256(password || salt)` hashed again `iterations` times. -/
def stretch_password (c : Crypto) (password salt : Bytes) (iterations : Nat) : Bytes :=
  Nat.iterate c.sha256 iterations (c.sha256 (password ++ salt))

/-- Fuel-driven block splitter behind `chunks16`; structurally recursive on
the fuel so that concrete instances evaluate inside the kernel. -/
def chunks16Fuel : Nat → Bytes → List Bytes
  | 0, _ => []
  | _ + 1, [] => []
  | fuel + 1, d => d.take 16 :: chunks16Fuel fuel (d.drop 16)

/-- The 16-byte blocks of a byte string, in order (the Twofish-CBC unit). -/
def chunks16 (d : Bytes) : List Bytes :=
  chunks16Fuel d.length d

/-- Modelled from the spec: `TwofishCBC.encrypt` over a whole (16-byte
padded) byte string (`loxodo_curses/twofish/twofish_cbc.py` is not under
`src/`).  Spec section 4.2: each block is XORed with the chaining state,
encrypted, and the ciphertext becomes the new state.  Returns the ciphertext
blocks together with the final chaining state. -/
def cbcEncChunks (c : Crypto) (key : Bytes) (st : Bytes) : List Bytes → List Bytes × Bytes
  | [] => ([], st)
  | d :: ds =>
      let cb := c.ecbEnc key (xorBytes d st)
      let (rest, st1) := cbcEncChunks c key cb ds
      (cb :: rest, st1)

/-- `cipher.encrypt(data)` for the CBC cipher: encrypt all 16-byte blocks of
`data`, chaining from `st`; returns the ciphertext and the new state. -/
def cbcEncrypt (c : Crypto) (key st data : Bytes) : Bytes × Bytes :=
  let (bs, st1) := cbcEncChunks c key st (chunks16 data)
  (bs.flatten, st1)

/-- Modelled from the spec: `TwofishCBC.decrypt` of a single 16-byte block
(`loxodo_curses/twofish/twofish_cbc.py` is not under `src/`).  Spec section
4.2: the plaintext is the block decryption XORed with the chaining state, and
the ciphertext block becomes the new state. -/
def cbcDecryptBlock (c : Crypto) (key st blk : Bytes) : Bytes × Bytes :=
  (xorBytes (c.ecbDec key blk) st, blk)

/-- `Field` (vault.py lines 51-61): the raw on-disk representation of one
field of a record or of the header. -/
structure Field where
  raw_type : Nat
  raw_value : Bytes
deriving DecidableEq

/-- `Field.raw_len` (vault.py lines 59-61). -/
def Field.raw_len (f : Field) : Nat := f.raw_value.length

/-- `d[k] = v` on a Python `dict[int, Field]`: overwriting an existing key
keeps its position in the iteration (insertion) order, a fresh key is
appended at the end.  The dictionary is modelled as an association list in
iteration order. -/
def dictInsert (d : List (Nat × Field)) (k : Nat) (v : Field) : List (Nat × Field) :=
  if d.any (fun p => p.1 == k) then d.map (fun p => if p.1 == k then (k, v) else p)
  else d ++ [(k, v)]

/-- `d[k]` / `k in d` on the modelled dictionary: the entry stored under `k`. -/
def dictGet (d : List (Nat × Field)) (k : Nat) : Option Field :=
  (d.find? (fun p => p.1 == k)).map Prod.snd

/-- `Header` (vault.py lines 64-95): the fields of a vault header.  (The
derived properties `what_saved`, `last_save`, `version` only format fields
for display and are not part of any claim.) -/
structure Header where
  raw_fields : List (Nat × Field) := []
deriving DecidableEq

/-- `Header.add_raw_field` (vault.py lines 71-72). -/
def Header.add_raw_field (h : Header) (f : Field) : Header :=
  ⟨dictInsert h.raw_fields f.raw_type f⟩

/-- `Headers.VERSION = 0x00` (vault.py line 100). -/
def Headers.VERSION : Nat := 0x00
/-- `Headers.LAST_SAVE = 0x04` (vault.py line 101). -/
def Headers.LAST_SAVE : Nat := 0x04
/-- `Headers.WHAT_SAVED = 0x06` (vault.py line 102). -/
def Headers.WHAT_SAVED : Nat := 0x06

/-- `Fields.UUID = 0x01` (vault.py line 107). -/
def Fields.UUID : Nat := 0x01
/-- `Fields.GROUP = 0x02` (vault.py line 108). -/
def Fields.GROUP : Nat := 0x02
/-- `Fields.TITLE = 0x03` (vault.py line 109). -/
def Fields.TITLE : Nat := 0x03
/-- `Fields.USER = 0x04` (vault.py line 110). -/
def Fields.USER : Nat := 0x04
/-- `Fields.NOTES = 0x05` (vault.py line 111). -/
def Fields.NOTES : Nat := 0x05
/-- `Fields.PASSWD = 0x06` (vault.py line 112). -/
def Fields.PASSWD : Nat := 0x06
/-- `Fields.CREATED = 0x07` (vault.py line 113). -/
def Fields.CREATED : Nat := 0x07
/-- `Fields.LAST_MOD = 0x0c` (vault.py line 114). -/
def Fields.LAST_MOD : Nat := 0x0c
/-- `Fields.URL = 0x0d` (vault.py line 115). -/
def Fields.URL : Nat := 0x0d

/-- Python `str` values are modelled by their UTF-8 byte encoding, under
which `str.encode('utf_8', 'replace')` is the identity on the
representation. -/
def utf8Encode (s : Bytes) : Bytes := s

/-- `bytes.decode('utf_8', 'replace')` under the same representation of
`str`: the identity (exact for well-formed UTF-8 input; for malformed input
Python substitutes U+FFFD, a difference no claim inspects since the decoded
views never feed back into the raw fields or the wire format). -/
def utf8Decode (b : Bytes) : Bytes := b

/-- Errors raised by the codec.  `versionError` is `VaultVersionError`,
`badPassword` is `BadPasswordError`, `formatError` is `VaultFormatError`,
`structError` is `struct.error` (short read at an `unpack` site) and
`valueError` is the `ValueError` raised by `UUID(bytes_le=...)` on a value
that is not 16 bytes. -/
inductive VErr
  | versionError
  | badPassword
  | formatError
  | structError
  | valueError
deriving DecidableEq

/-- `Record` (vault.py lines 148-162): raw fields plus the decoded typed
views.  A `UUID` value is represented by its `bytes_le` byte string, and
`str` views by their UTF-8 encoding. -/
structure Record where
  raw_fields : List (Nat × Field) := []
  _uuid : Option Bytes := none
  _group : Bytes := []
  _title : Bytes := []
  _user : Bytes := []
  _notes : Bytes := []
  _passwd : Bytes := []
  _created : Nat := 0
  _last_mod : Nat := 0
  _url : Bytes := []
deriving DecidableEq

/-- `Record.add_raw_field` (vault.py lines 173-192): store the field under
its type and re-derive the matching typed view.  `UUID(bytes_le=value)`
raises `ValueError` unless the value is exactly 16 bytes; `LAST_MOD` and
`CREATED` are decoded only when their value is exactly 4 bytes. -/
def Record.add_raw_field (r : Record) (f : Field) : Except VErr Record :=
  let r1 : Record := { r with raw_fields := dictInsert r.raw_fields f.raw_type f }
  if f.raw_type = Fields.UUID then
    if f.raw_value.length = 16 then .ok { r1 with _uuid := some f.raw_value }
    else .error .valueError
  else if f.raw_type = Fields.GROUP then .ok { r1 with _group := utf8Decode f.raw_value }
  else if f.raw_type = Fields.TITLE then .ok { r1 with _title := utf8Decode f.raw_value }
  else if f.raw_type = Fields.USER then .ok { r1 with _user := utf8Decode f.raw_value }
  else if f.raw_type = Fields.NOTES then .ok { r1 with _notes := utf8Decode f.raw_value }
  else if f.raw_type = Fields.PASSWD then .ok { r1 with _passwd := utf8Decode f.raw_value }
  else if f.raw_type = Fields.LAST_MOD ∧ f.raw_len = 4 then
    .ok { r1 with _last_mod := unpackU32 f.raw_value }
  else if f.raw_type = Fields.CREATED ∧ f.raw_len = 4 then
    .ok { r1 with _created := unpackU32 f.raw_value }
  else if f.raw_type = Fields.URL then .ok { r1 with _url := utf8Decode f.raw_value }
  else .ok r1

/-- The `last_mod` setter (vault.py lines 267-271): updates the typed view
and the raw `LAST_MOD` entry; it does not bump anything else. -/
def Record.set_last_mod (r : Record) (value : Nat) : Record :=
  { r with
    _last_mod := value
    raw_fields := dictInsert r.raw_fields Fields.LAST_MOD ⟨Fields.LAST_MOD, packU32 value⟩ }

/-- `Record.mark_modified` (vault.py lines 194-195): `self.last_mod =
int(time.time())`; the current time is passed in as `now`. -/
def Record.mark_modified (r : Record) (now : Nat) : Record :=
  r.set_last_mod now

/-- The `created` setter (vault.py lines 277-281): updates the typed view and
the raw `CREATED` entry; it does not call `mark_modified`. -/
def Record.set_created (r : Record) (value : Nat) : Record :=
  { r with
    _created := value
    raw_fields := dictInsert r.raw_fields Fields.CREATED ⟨Fields.CREATED, packU32 value⟩ }

/-- The `uuid` setter (vault.py lines 201-206): stores `value.bytes_le` as
the raw `UUID` entry and marks the record modified. -/
def Record.set_uuid (r : Record) (now : Nat) (value : Bytes) : Record :=
  ({ r with
     _uuid := some value
     raw_fields := dictInsert r.raw_fields Fields.UUID ⟨Fields.UUID, value⟩ }).mark_modified now

/-- The `group` setter (vault.py lines 212-217). -/
def Record.set_group (r : Record) (now : Nat) (value : Bytes) : Record :=
  ({ r with
     _group := value
     raw_fields := dictInsert r.raw_fields Fields.GROUP
       ⟨Fields.GROUP, utf8Encode value⟩ }).mark_modified now

/-- The `title` setter (vault.py lines 223-228). -/
def Record.set_title (r : Record) (now : Nat) (value : Bytes) : Record :=
  ({ r with
     _title := value
     raw_fields := dictInsert r.raw_fields Fields.TITLE
       ⟨Fields.TITLE, utf8Encode value⟩ }).mark_modified now

/-- The `user` setter (vault.py lines 234-239). -/
def Record.set_user (r : Record) (now : Nat) (value : Bytes) : Record :=
  ({ r with
     _user := value
     raw_fields := dictInsert r.raw_fields Fields.USER
       ⟨Fields.USER, utf8Encode value⟩ }).mark_modified now

/-- The `notes` setter (vault.py lines 245-250). -/
def Record.set_notes (r : Record) (now : Nat) (value : Bytes) : Record :=
  ({ r with
     _notes := value
     raw_fields := dictInsert r.raw_fields Fields.NOTES
       ⟨Fields.NOTES, utf8Encode value⟩ }).mark_modified now

/-- The `passwd` setter (vault.py lines 256-261). -/
def Record.set_passwd (r : Record) (now : Nat) (value : Bytes) : Record :=
  ({ r with
     _passwd := value
     raw_fields := dictInsert r.raw_fields Fields.PASSWD
       ⟨Fields.PASSWD, utf8Encode value⟩ }).mark_modified now

/-- The `url` setter (vault.py lines 287-292). -/
def Record.set_url (r : Record) (now : Nat) (value : Bytes) : Record :=
  ({ r with
     _url := value
     raw_fields := dictInsert r.raw_fields Fields.URL
       ⟨Fields.URL, utf8Encode value⟩ }).mark_modified now

/-- The `Field(END_OF_ENTRY, b"")` terminator written after the header and
after each record (`end_of_record`, vault.py line 546). -/
def eoeField : Field := ⟨END_OF_ENTRY, []⟩

/-- `_write_field_tlv(filehandle, cipher, field)` (vault.py lines 332-354):
`None` writes the in-clear `END_OF_FILE` marker; a field is serialised as
`len(4 LE) || type(1) || value`, padded to a 16-byte multiple with random
bytes, and CBC-encrypted.  Returns the bytes written and the new CBC state. -/
def write_field_tlv (c : Crypto) (key st : Bytes) (field : Option Field) : Bytes × Bytes :=
  match field with
  | none => (END_OF_FILE, st)
  | some f =>
      let data := packU32 f.raw_len ++ packU8 f.raw_type ++ f.raw_value
      let data := if data.length % 16 ≠ 0 then data ++ c.urandom (16 - data.length % 16)
                  else data
      cbcEncrypt c key st data

/-- The padded TLV plaintext `len(4 LE) || type(1) || value || random pad`
assembled by `_write_field_tlv` (vault.py lines 342-350) before encryption. -/
def paddedData (c : Crypto) (f : Field) : Bytes :=
  let data := packU32 f.raw_len ++ packU8 f.raw_type ++ f.raw_value
  if data.length % 16 ≠ 0 then data ++ c.urandom (16 - data.length % 16) else data

/-- One `for field in ...: _write_field_tlv(...); hmac_checker.update(field.raw_value)`
loop of `Vault.write_to_stream` (vault.py lines 548-550 and 555-557), over a
list of fields.  Threads the CBC state and the accumulated HMAC message
(the concatenation of all bytes fed through `HMAC.update`). -/
def write_field_seq (c : Crypto) (key : Bytes) (st hm : Bytes) :
    List Field → Bytes × Bytes × Bytes
  | [] => ([], st, hm)
  | f :: fs =>
      let (b, st1) := write_field_tlv c key st (some f)
      let (bs, st2, hm2) := write_field_seq c key st1 (hm ++ f.raw_value) fs
      (b ++ bs, st2, hm2)

/-- The records loop of `Vault.write_to_stream` (vault.py lines 554-559):
each record's fields in dictionary order followed by an `END_OF_ENTRY`
terminator (whose empty value is also fed to the HMAC). -/
def write_records (c : Crypto) (key : Bytes) (st hm : Bytes) :
    List Record → Bytes × Bytes × Bytes
  | [] => ([], st, hm)
  | r :: rs =>
      let (b1, st1, hm1) := write_field_seq c key st hm (r.raw_fields.map Prod.snd)
      let (b2, st2) := write_field_tlv c key st1 (some eoeField)
      let hm2 := hm1 ++ eoeField.raw_value
      let (b3, st3, hm3) := write_records c key st2 hm2 rs
      (b1 ++ b2 ++ b3, st3, hm3)

/-- `Vault.write_iter = 262_144` (vault.py line 382): the V3 minimum
keystretch iteration count. -/
def write_iter : Nat := 262144

/-- `Vault` (vault.py lines 373-398): envelope members, header, records. -/
structure Vault where
  f_tag : Bytes
  f_salt : Bytes
  f_iter : Nat
  f_sha_ps : Bytes
  f_b1 : Bytes
  f_b2 : Bytes
  f_b3 : Bytes
  f_b4 : Bytes
  f_iv : Bytes
  f_hmac : Bytes
  header : Header
  records : List Record
deriving DecidableEq

/-- `Vault.write_to_stream(filehandle, password)` (vault.py lines 512-564).
`now` stands for `int(time.time())` at the moment of the call and
`whatSaved` for the producer string `f'Loxodo v{__version__}'` already
UTF-8 encoded (the package `__version__` is not under `src/`).  Returns the
vault as mutated by the call together with the bytes written. -/
def write_to_stream (c : Crypto) (now : Nat) (whatSaved : Bytes) (v : Vault)
    (password : Bytes) : Vault × Bytes :=
  let hdr : Header :=
    ⟨dictInsert
      (dictInsert v.header.raw_fields Headers.LAST_SAVE
        ⟨Headers.LAST_SAVE, packU32 now⟩)
      Headers.WHAT_SAVED ⟨Headers.WHAT_SAVED, whatSaved⟩⟩
  let f_iter := max v.f_iter write_iter
  let sp := stretch_password c password v.f_salt f_iter
  let f_sha_ps := c.sha256 sp
  let key_k := c.ecbDec sp v.f_b1 ++ c.ecbDec sp v.f_b2
  let key_l := c.ecbDec sp v.f_b3 ++ c.ecbDec sp v.f_b4
  let (hb, st1, hm1) := write_field_seq c key_k v.f_iv [] (hdr.raw_fields.map Prod.snd)
  let (he, st2) := write_field_tlv c key_k st1 (some eoeField)
  let hm2 := hm1 ++ eoeField.raw_value
  let (rb, st3, hm3) := write_records c key_k st2 hm2 v.records
  let (eofb, _) := write_field_tlv c key_k st3 none
  let f_hmac := c.hmacDigest key_l hm3
  ({ v with header := hdr, f_sha_ps := f_sha_ps, f_hmac := f_hmac },
   v.f_tag ++ v.f_salt ++ packU32 f_iter ++ f_sha_ps
     ++ v.f_b1 ++ v.f_b2 ++ v.f_b3 ++ v.f_b4 ++ v.f_iv
     ++ hb ++ he ++ rb ++ eofb ++ f_hmac)

/-- The block-reading loop of `_read_field_tlv` (vault.py lines 139-143):
read `count` further 16-byte blocks, CBC-decrypt each, and concatenate the
plaintexts.  A short read raises `VaultFormatError`. -/
def readBlocks (c : Crypto) (key : Bytes) :
    Nat → Bytes → Bytes → Except VErr (Bytes × Bytes × Bytes)
  | 0, st, s => .ok ([], st, s)
  | n + 1, st, s =>
      let data := s.take 16
      if data.length < 16 then .error .formatError
      else
        let (plain, st1) := cbcDecryptBlock c key st data
        match readBlocks c key n st1 (s.drop 16) with
        | .error e => .error e
        | .ok (rest, st2, s2) => .ok (plain ++ rest, st2, s2)

/-- `_read_field_tlv(filehandle, cipher)` (vault.py lines 124-145): read one
TLV field from the stream.  Returns `none` on the in-clear `END_OF_FILE`
marker.  The decrypted first block carries the 32-bit LE length `L`, the
type byte, and the first up to 11 value bytes; when `L > 11` the reader pulls
`(L+4)/16` (integer division) further blocks and the concatenated value is
truncated to `L` bytes.  Also returns the new CBC state and the rest of the
stream. -/
def read_field_tlv (c : Crypto) (key st s : Bytes) :
    Except VErr (Option Field × Bytes × Bytes) :=
  let data := s.take 16
  if data.length < 16 then .error .formatError
  else if data = END_OF_FILE then .ok (none, st, s.drop 16)
  else
    let (plain, st1) := cbcDecryptBlock c key st data
    let raw_len := unpackU32 (plain.take 4)
    let raw_type := plain.getD 4 0
    let raw_value := plain.drop 5
    if raw_len > 11 then
      match readBlocks c key ((raw_len + 4) / 16) st1 (s.drop 16) with
      | .error e => .error e
      | .ok (extra, st2, s2) =>
          .ok (some ⟨raw_type, (raw_value ++ extra).take raw_len⟩, st2, s2)
    else .ok (some ⟨raw_type, raw_value.take raw_len⟩, st1, s.drop 16)

/-- The header-reading loop of `Vault._read_from_stream` (vault.py lines
468-475): read fields until the `END_OF_FILE` marker or an `END_OF_ENTRY`
field; every other field is added to the header and its raw value fed to the
HMAC.  `fuel` bounds the number of iterations; since every iteration
consumes at least 16 bytes of the stream, a fuel of `s.length + 1` can never
be exhausted. -/
def readHeaderLoop (c : Crypto) (key : Bytes) :
    Nat → Bytes → Bytes → Header → Bytes → Except VErr (Header × Bytes × Bytes × Bytes)
  | 0, _, _, _, _ => .error .formatError
  | fuel + 1, st, hm, hdr, s =>
      match read_field_tlv c key st s with
      | .error e => .error e
      | .ok (none, st1, s1) => .ok (hdr, st1, hm, s1)
      | .ok (some f, st1, s1) =>
          if f.raw_type = END_OF_ENTRY then .ok (hdr, st1, hm, s1)
          else readHeaderLoop c key fuel st1 (hm ++ f.raw_value) (hdr.add_raw_field f) s1

/-- The record-reading loop of `Vault._read_from_stream` (vault.py lines
479-489): accumulate fields into the current record; an `END_OF_ENTRY` field
pushes the record and starts a fresh one; the `END_OF_FILE` marker stops the
loop without pushing the in-progress record. -/
def readRecordsLoop (c : Crypto) (key : Bytes) :
    Nat → Bytes → Bytes → List Record → Record → Bytes →
    Except VErr (List Record × Bytes × Bytes × Bytes)
  | 0, _, _, _, _, _ => .error .formatError
  | fuel + 1, st, hm, recs, cur, s =>
      match read_field_tlv c key st s with
      | .error e => .error e
      | .ok (none, st1, s1) => .ok (recs, st1, hm, s1)
      | .ok (some f, st1, s1) =>
          if f.raw_type = END_OF_ENTRY then
            readRecordsLoop c key fuel st1 hm (recs ++ [cur]) {} s1
          else
            match cur.add_raw_field f with
            | .error e => .error e
            | .ok cur1 => readRecordsLoop c key fuel st1 (hm ++ f.raw_value) recs cur1 s1

/-- The field-section part of `Vault._read_from_stream` (vault.py lines
466-503): the header loop, the records loop, and the trailing 32-byte HMAC
with its constant-time comparison against the recomputed digest.  Returns
the header, the records, the HMAC read from the stream, and the stream
position at the HMAC. -/
def read_from_stream_fields (c : Crypto) (key_k key_l f_iv s9 : Bytes) :
    Except VErr (Header × List Record × Bytes × Bytes) :=
  match readHeaderLoop c key_k (s9.length + 1) f_iv [] ⟨[]⟩ s9 with
  | .error e => .error e
  | .ok (hdr, st1, hm1, s10) =>
      match readRecordsLoop c key_k (s10.length + 1) st1 hm1 [] {} s10 with
      | .error e => .error e
      | .ok (recs, _, hm2, s11) =>
          let f_hmac := s11.take 32
          let my_hmac := c.hmacDigest key_l hm2
          if f_hmac ≠ my_hmac then .error .formatError
          else .ok (hdr, recs, f_hmac, s11)

/-- `Vault._read_from_stream(filehandle, password)` (vault.py lines 434-503):
parse the envelope, verify the passphrase hash, derive the cipher and HMAC
keys, read header fields and records, and verify the trailing HMAC.
`filehandle.read(n)` returns the next `min(n, remaining)` bytes; the
`struct.unpack` of the iteration count raises on a short read. -/
def read_from_stream (c : Crypto) (s : Bytes) (password : Bytes) : Except VErr Vault :=
  let f_tag := s.take 4
  if f_tag ≠ FILE_MAGIC then .error .versionError
  else
    let s1 := s.drop 4
    let f_salt := s1.take 32
    let s2 := s1.drop 32
    let iterBytes := s2.take 4
    if iterBytes.length ≠ 4 then .error .structError
    else
      let s3 := s2.drop 4
      let f_iter := unpackU32 iterBytes
      let sp := stretch_password c password f_salt f_iter
      let my_sha_ps := c.sha256 sp
      let f_sha_ps := s3.take 32
      if f_sha_ps ≠ my_sha_ps then .error .badPassword
      else
        let s4 := s3.drop 32
        let f_b1 := s4.take 16
        let s5 := s4.drop 16
        let f_b2 := s5.take 16
        let s6 := s5.drop 16
        let f_b3 := s6.take 16
        let s7 := s6.drop 16
        let f_b4 := s7.take 16
        let s8 := s7.drop 16
        let key_k := c.ecbDec sp f_b1 ++ c.ecbDec sp f_b2
        let key_l := c.ecbDec sp f_b3 ++ c.ecbDec sp f_b4
        let f_iv := s8.take 16
        let s9 := s8.drop 16
        match read_from_stream_fields c key_k key_l f_iv s9 with
        | .error e => .error e
        | .ok (hdr, recs, f_hmac, _) =>
            .ok ⟨f_tag, f_salt, f_iter, f_sha_ps, f_b1, f_b2, f_b3, f_b4,
                 f_iv, f_hmac, hdr, recs⟩

/-- The iteration count actually used by `write_to_stream`
(vault.py line 525): `max(self.f_iter, self.write_iter)`. -/
def writeIterOf (v : Vault) : Nat := max v.f_iter write_iter

/-- The stretched password computed by `write_to_stream` (vault.py line 528). -/
def writeStretched (c : Crypto) (v : Vault) (password : Bytes) : Bytes :=
  stretch_password c password v.f_salt (writeIterOf v)

/-- The CBC key `K` derived by `write_to_stream` (vault.py line 538). -/
def writeKeyK (c : Crypto) (v : Vault) (password : Bytes) : Bytes :=
  c.ecbDec (writeStretched c v password) v.f_b1 ++ c.ecbDec (writeStretched c v password) v.f_b2

/-- The HMAC key `L` derived by `write_to_stream` (vault.py line 539). -/
def writeKeyL (c : Crypto) (v : Vault) (password : Bytes) : Bytes :=
  c.ecbDec (writeStretched c v password) v.f_b3 ++ c.ecbDec (writeStretched c v password) v.f_b4

/-- The header produced at the start of `write_to_stream` (vault.py lines
513-516): `LAST_SAVE` and `WHAT_SAVED` overwritten unconditionally. -/
def writeHeaderOf (v : Vault) (now : Nat) (whatSaved : Bytes) : Header :=
  ⟨dictInsert
    (dictInsert v.header.raw_fields Headers.LAST_SAVE ⟨Headers.LAST_SAVE, packU32 now⟩)
    Headers.WHAT_SAVED ⟨Headers.WHAT_SAVED, whatSaved⟩⟩

/-- All fields written to the encrypted field section by `write_to_stream`,
in stream order: the (refreshed) header fields, the header terminator, and
for every record its fields followed by a terminator. -/
def writeAllFields (v : Vault) (now : Nat) (whatSaved : Bytes) : List Field :=
  (writeHeaderOf v now whatSaved).raw_fields.map Prod.snd ++ [eoeField]
    ++ (v.records.map (fun r => r.raw_fields.map Prod.snd ++ [eoeField])).flatten

/-- The concatenation of all bytes fed through `HMAC.update` during
`write_to_stream`: exactly the raw values of the emitted fields, in stream
order (terminators contribute their empty value). -/
def hmacMessage (v : Vault) (now : Nat) (whatSaved : Bytes) : Bytes :=
  ((writeAllFields v now whatSaved).map Field.raw_value).flatten

/-- Well-formedness of a header field as the writer and reader exchange it:
the type fits `struct.pack("<B", ...)`, is not the `END_OF_ENTRY` sentinel,
and the length fits `struct.pack("<L", ...)`. -/
def hfieldOk (f : Field) : Prop :=
  f.raw_type < 256 ∧ f.raw_type ≠ END_OF_ENTRY ∧ f.raw_len < 4294967296

instance (f : Field) : Decidable (hfieldOk f) := by
  unfold hfieldOk; infer_instance

/-- Well-formedness of a record field: additionally, a `UUID` field must
carry exactly 16 bytes so that `UUID(bytes_le=...)` succeeds on re-read. -/
def rfieldOk (f : Field) : Prop :=
  hfieldOk f ∧ (f.raw_type = Fields.UUID → f.raw_value.length = 16)

instance (f : Field) : Decidable (rfieldOk f) := by
  unfold rfieldOk; infer_instance

/-- Well-formedness of a raw-field dictionary: keys are distinct, each entry
is stored under its own `raw_type` (the invariant `add_raw_field` and the
setters maintain), and every field satisfies `ok`. -/
def dictOk (ok : Field → Prop) (d : List (Nat × Field)) : Prop :=
  (d.map Prod.fst).Nodup ∧ ∀ p ∈ d, p.1 = p.2.raw_type ∧ ok p.2

instance (ok : Field → Prop) [DecidablePred ok] (d : List (Nat × Field)) :
    Decidable (dictOk ok d) := by
  unfold dictOk; infer_instance

/-- Well-formedness of an in-memory vault as maintained by the program:
the magic tag, the envelope member sizes, an iteration count that fits
`struct.pack("<L", ...)`, and well-formed header and record dictionaries. -/
def vaultWF (v : Vault) : Prop :=
  v.f_tag = FILE_MAGIC ∧ v.f_salt.length = 32 ∧ v.f_iter < 4294967296 ∧
  v.f_b1.length = 16 ∧ v.f_b2.length = 16 ∧ v.f_b3.length = 16 ∧ v.f_b4.length = 16 ∧
  v.f_iv.length = 16 ∧ dictOk hfieldOk v.header.raw_fields ∧
  ∀ r ∈ v.records, dictOk rfieldOk r.raw_fields

instance (v : Vault) : Decidable (vaultWF v) := by
  unfold vaultWF; infer_instance

/-- No ciphertext block that starts a serialised field collides with the
in-clear `END_OF_FILE` marker (the reader compares the raw 16 bytes against
the marker before decrypting, vault.py line 131).  The condition follows the
chaining states of the writer across the given field sequence. -/
def fieldBlocksOk (c : Crypto) (key : Bytes) : Bytes → List Field → Prop
  | _, [] => True
  | st, f :: fs =>
      let (b, st1) := write_field_tlv c key st (some f)
      b.take 16 ≠ END_OF_FILE ∧ fieldBlocksOk c key st1 fs

instance (c : Crypto) (key : Bytes) (st : Bytes) (fs : List Field) :
    Decidable (fieldBlocksOk c key st fs) := by
  induction fs generalizing st with
  | nil => exact .isTrue trivial
  | cons f fs ih =>
      simp only [fieldBlocksOk]
      exact @instDecidableAnd _ _ inferInstance (ih _)

/-- The fold of `Record.add_raw_field` that the record-reading loop performs
over the fields of one record. -/
def buildRecord (cur : Record) : List Field → Except VErr Record
  | [] => .ok cur
  | f :: fs =>
      match cur.add_raw_field f with
      | .error e => .error e
      | .ok cur1 => buildRecord cur1 fs

/-- A small concrete well-formed vault used to evaluate the codec theorems
on an explicit input: empty header, no records, all-zero key material. -/
def wVault : Vault :=
  ⟨FILE_MAGIC, List.replicate 32 0, 1000, [], List.replicate 16 0, List.replicate 16 0,
   List.replicate 16 0, List.replicate 16 0, List.replicate 16 0, [], ⟨[]⟩, []⟩

/-- Concrete first ciphertext block for evaluating `_read_field_tlv`: with
the identity cipher and an all-zero state it decodes to a field of length
`L = 13` and type 7. -/
def c2b1 : Bytes := [13, 0, 0, 0, 7, 0, 0, 0, 0, 0, 0, 0, 0, 0, 0, 0]

/-- Concrete 48-byte stream: the block above, one further block, and one
16-byte block that the reader must not consume. -/
def c2s : Bytes := c2b1 ++ List.replicate 16 0 ++ List.replicate 16 1

/-- Concrete single ciphertext block for the HMAC-transcript theorems: with
the identity cipher and an all-zero state it decodes to a `TITLE` field whose
value is `[1, 2, 3, 4, 5]`. -/
def c3b : Bytes := [5, 0, 0, 0, 3, 1, 2, 3, 4, 5, 0, 0, 0, 0, 0, 0]

/-- The record obtained by adding that `TITLE` field to an empty record. -/
def c3rec : Record :=
  { raw_fields := [(3, ⟨3, [1, 2, 3, 4, 5]⟩)], _title := [1, 2, 3, 4, 5] }

/-! ## General lemmas -/

theorem unpackU32_u32le (n : Nat) (h : n < 4294967296) : unpackU32 (u32le n) = n := by
  show n % 256 + 256 * (n / 256 % 256) + 65536 * (n / 65536 % 256)
      + 16777216 * (n / 16777216 % 256) = n
  omega

theorem u32le_length (n : Nat) : (u32le n).length = 4 := rfl

theorem packU32_eq (n : Nat) (h : n < 4294967296) : packU32 n = u32le n := by
  simp [packU32, Nat.mod_eq_of_lt h]

theorem packU32_length (n : Nat) : (packU32 n).length = 4 := rfl

theorem unpackU32_packU32 (n : Nat) (h : n < 4294967296) : unpackU32 (packU32 n) = n := by
  rw [packU32_eq n h, unpackU32_u32le n h]

theorem xorBytes_length (a b : Bytes) : (xorBytes a b).length = min a.length b.length := by
  simp [xorBytes]

theorem xorBytes_xorBytes (a b : Bytes) (h : a.length = b.length) :
    xorBytes (xorBytes a b) b = a := by
  induction a generalizing b with
  | nil => simp [xorBytes]
  | cons x xs ih =>
      cases b with
      | nil => simp at h
      | cons y ys =>
          simp only [xorBytes, List.zipWith_cons_cons] at *
          have hx : Nat.xor (Nat.xor x y) y = x := Nat.xor_cancel_right y x
          rw [hx]
          exact congrArg _ (ih ys (by simpa using h))

theorem find?_append_of_none {α : Type} (f : α → Bool) (d l : List α)
    (h : d.any f = false) : (d ++ l).find? f = l.find? f := by
  induction d with
  | nil => rfl
  | cons p d ih =>
      simp only [List.any_cons, Bool.or_eq_false_iff] at h
      simp only [List.cons_append]
      rw [List.find?_cons_of_neg _ (by simp [h.1])]
      exact ih h.2

theorem find?_append_tail_none {α : Type} (f : α → Bool) (d l : List α)
    (h : l.find? f = none) : (d ++ l).find? f = d.find? f := by
  induction d with
  | nil => simpa using h
  | cons p d ih =>
      by_cases hp : f p = true
      · rw [List.cons_append, List.find?_cons_of_pos _ hp, List.find?_cons_of_pos _ hp]
      · rw [List.cons_append, List.find?_cons_of_neg _ hp, List.find?_cons_of_neg _ hp]
        exact ih

theorem dictGet_overwrite (d : List (Nat × Field)) (k : Nat) (v : Field)
    (hany : d.any (fun p => p.1 == k) = true) :
    dictGet (d.map (fun p => if p.1 == k then (k, v) else p)) k = some v := by
  induction d with
  | nil => simp at hany
  | cons p d ih =>
      by_cases hp : p.1 = k
      · simp [dictGet, List.find?, hp]
      · have hb : (p.1 == k) = false := by simpa using hp
        simp only [List.any_cons, hb, Bool.false_or] at hany
        simp only [List.map_cons, dictGet, hb, if_false]
        rw [List.find?_cons_of_neg _ (by simp [hb])]
        simpa [dictGet] using ih hany

theorem dictGet_dictInsert_self (d : List (Nat × Field)) (k : Nat) (v : Field) :
    dictGet (dictInsert d k v) k = some v := by
  unfold dictInsert
  split
  · exact dictGet_overwrite d k v (by assumption)
  · rename_i hany
    have hany2 : d.any (fun p => p.1 == k) = false := Bool.eq_false_iff.mpr hany
    simp only [dictGet]
    rw [find?_append_of_none _ d _ hany2]
    rw [List.find?_cons_of_pos _ (by simp)]
    rfl

theorem find?_map_overwrite (d : List (Nat × Field)) (k k2 : Nat) (v : Field)
    (hne : k2 ≠ k) :
    List.find? (fun q => q.1 == k2) (d.map (fun p => if p.1 == k then (k, v) else p))
      = List.find? (fun q => q.1 == k2) d := by
  induction d with
  | nil => rfl
  | cons p d ih =>
      simp only [List.map_cons]
      by_cases hp : p.1 = k
      · rw [if_pos (by simpa using hp)]
        rw [List.find?_cons_of_neg _ (by simp; omega)]
        rw [List.find?_cons_of_neg _ (by simp [hp]; omega)]
        exact ih
      · rw [if_neg (by simpa using hp)]
        by_cases hq : p.1 = k2
        · rw [List.find?_cons_of_pos _ (by simpa using hq),
              List.find?_cons_of_pos _ (by simpa using hq)]
        · rw [List.find?_cons_of_neg _ (by simpa using hq),
              List.find?_cons_of_neg _ (by simpa using hq)]
          exact ih

theorem dictGet_dictInsert_ne (d : List (Nat × Field)) (k k2 : Nat) (v : Field)
    (hne : k2 ≠ k) : dictGet (dictInsert d k v) k2 = dictGet d k2 := by
  unfold dictInsert
  split
  · simp only [dictGet]
    rw [find?_map_overwrite d k k2 v hne]
  · simp only [dictGet]
    rw [find?_append_tail_none _ d _ ?_]
    rw [List.find?_cons_of_neg _ (by simp; omega)]
    rfl

theorem keys_map_overwrite (d : List (Nat × Field)) (k : Nat) (v : Field) :
    (d.map (fun p => if p.1 == k then (k, v) else p)).map Prod.fst = d.map Prod.fst := by
  induction d with
  | nil => rfl
  | cons p d ih =>
      simp only [List.map_cons]
      by_cases hp : p.1 = k
      · rw [if_pos (by simpa using hp), ih]
        simp [hp]
      · rw [if_neg (by simpa using hp), ih]

theorem dictInsert_keys_of_mem (d : List (Nat × Field)) (k : Nat) (v : Field)
    (hany : d.any (fun p => p.1 == k) = true) :
    (dictInsert d k v).map Prod.fst = d.map Prod.fst := by
  unfold dictInsert
  rw [if_pos hany]
  exact keys_map_overwrite d k v

theorem dictInsert_keys_of_not_mem (d : List (Nat × Field)) (k : Nat) (v : Field)
    (hany : d.any (fun p => p.1 == k) = false) :
    (dictInsert d k v).map Prod.fst = d.map Prod.fst ++ [k] := by
  unfold dictInsert
  rw [if_neg (by simp [hany])]
  simp

theorem dictOk_dictInsert (ok : Field → Prop) (d : List (Nat × Field)) (v : Field)
    (hd : dictOk ok d) (hv : ok v) : dictOk ok (dictInsert d v.raw_type v) := by
  constructor
  · cases hany : d.any (fun p => p.1 == v.raw_type) with
    | true => rw [dictInsert_keys_of_mem d _ v hany]; exact hd.1
    | false =>
        rw [dictInsert_keys_of_not_mem d _ v hany]
        have hnm : v.raw_type ∉ d.map Prod.fst := by
          intro hmem
          rcases List.mem_map.mp hmem with ⟨p, hp, hfst⟩
          have : d.any (fun p => p.1 == v.raw_type) = true :=
            List.any_eq_true.mpr ⟨p, hp, by simpa using hfst⟩
          simp [this] at hany
        rw [List.nodup_append]
        refine ⟨hd.1, List.nodup_singleton _, ?_⟩
        intro a ha hb
        rw [List.mem_singleton] at hb
        exact hnm (hb ▸ ha)
  · intro p hp
    unfold dictInsert at hp
    split at hp
    · rcases List.mem_map.mp hp with ⟨q, hq, hgq⟩
      by_cases hq1 : q.1 = v.raw_type
      · rw [if_pos (by simpa using hq1)] at hgq
        rw [← hgq]
        exact ⟨rfl, hv⟩
      · rw [if_neg (by simpa using hq1)] at hgq
        rw [← hgq]
        exact hd.2 q hq
    · rcases List.mem_append.mp hp with h | h
      · exact hd.2 p h
      · rcases List.mem_singleton.mp h with rfl
        exact ⟨rfl, hv⟩

theorem add_raw_field_raw_fields (r : Record) (f : Field) (r1 : Record)
    (h : r.add_raw_field f = .ok r1) :
    r1.raw_fields = dictInsert r.raw_fields f.raw_type f := by
  unfold Record.add_raw_field at h
  split at h
  · split at h
    · cases h; rfl
    · cases h
  · split at h
    · cases h; rfl
    · split at h
      · cases h; rfl
      · split at h
        · cases h; rfl
        · split at h
          · cases h; rfl
          · split at h
            · cases h; rfl
            · split at h
              · cases h; rfl
              · split at h
                · cases h; rfl
                · split at h
                  · cases h; rfl
                  · cases h; rfl

theorem dictInsert_key_mem (d : List (Nat × Field)) (k : Nat) (v : Field) :
    k ∈ (dictInsert d k v).map Prod.fst := by
  cases hany : d.any (fun p => p.1 == k) with
  | true =>
      rw [dictInsert_keys_of_mem d k v hany]
      rcases List.any_eq_true.mp hany with ⟨p, hp, hpk⟩
      exact List.mem_map.mpr ⟨p, hp, by simpa using hpk⟩
  | false =>
      rw [dictInsert_keys_of_not_mem d k v hany]
      simp

theorem dictInsert_keys_nodup (d : List (Nat × Field)) (k : Nat) (v : Field)
    (hd : (d.map Prod.fst).Nodup) : ((dictInsert d k v).map Prod.fst).Nodup := by
  cases hany : d.any (fun p => p.1 == k) with
  | true => rw [dictInsert_keys_of_mem d k v hany]; exact hd
  | false =>
      rw [dictInsert_keys_of_not_mem d k v hany]
      have hnm : k ∉ d.map Prod.fst := by
        intro hmem
        rcases List.mem_map.mp hmem with ⟨p, hp, hfst⟩
        have : d.any (fun p => p.1 == k) = true :=
          List.any_eq_true.mpr ⟨p, hp, by simpa using hfst⟩
        simp [this] at hany
      rw [List.nodup_append]
      refine ⟨hd, List.nodup_singleton _, ?_⟩
      intro a ha hb
      rw [List.mem_singleton] at hb
      exact hnm (hb ▸ ha)

theorem setter_dict_facts (d : List (Nat × Field)) (t : Nat) (ft fm : Field)
    (ht : t ≠ Fields.LAST_MOD) :
    dictGet (dictInsert (dictInsert d t ft) Fields.LAST_MOD fm) t = some ft ∧
    dictGet (dictInsert (dictInsert d t ft) Fields.LAST_MOD fm) Fields.LAST_MOD = some fm := by
  constructor
  · rw [dictGet_dictInsert_ne _ _ _ _ ht, dictGet_dictInsert_self]
  · rw [dictGet_dictInsert_self]

theorem add_raw_field_ok (r : Record) (f : Field) (hok : rfieldOk f) :
    ∃ r1, r.add_raw_field f = .ok r1 := by
  unfold Record.add_raw_field
  split
  · rename_i ht
    rw [if_pos (hok.2 ht)]
    exact ⟨_, rfl⟩
  · split
    · exact ⟨_, rfl⟩
    · split
      · exact ⟨_, rfl⟩
      · split
        · exact ⟨_, rfl⟩
        · split
          · exact ⟨_, rfl⟩
          · split
            · exact ⟨_, rfl⟩
            · split
              · exact ⟨_, rfl⟩
              · split
                · exact ⟨_, rfl⟩
                · split
                  · exact ⟨_, rfl⟩
                  · exact ⟨_, rfl⟩

theorem goodIdCrypto : GoodCrypto idCrypto :=
  ⟨fun _ _ _ => rfl, fun _ _ h => h, fun _ _ h => h,
   fun _ => rfl, fun _ _ => rfl, fun n => List.length_replicate n 0⟩

theorem readBlocks_spec (c : Crypto) (hc : GoodCrypto c) (key : Bytes) :
    ∀ (n : Nat) (st s : Bytes), st.length = 16 → 16 * n ≤ s.length →
      ∃ extra st2, readBlocks c key n st s = .ok (extra, st2, s.drop (16 * n)) ∧
        extra.length = 16 * n ∧ st2.length = 16 := by
  intro n
  induction n with
  | zero =>
      intro st s hst _
      exact ⟨[], st, by simp [readBlocks], rfl, hst⟩
  | succ n ih =>
      intro st s hst hlen
      have hs16 : 16 ≤ s.length := by omega
      have hdata : (s.take 16).length = 16 := by
        rw [List.length_take]; omega
      have hplain : (xorBytes (c.ecbDec key (s.take 16)) st).length = 16 := by
        rw [xorBytes_length, hc.dec_len key _ hdata, hst]; omega
      rcases ih (s.take 16) (s.drop 16) hdata (by rw [List.length_drop]; omega)
        with ⟨extra, st2, hrec, hexlen, hst2⟩
      refine ⟨xorBytes (c.ecbDec key (s.take 16)) st ++ extra, st2, ?_, ?_, hst2⟩
      · simp only [readBlocks, hdata]
        rw [if_neg (by omega)]
        simp only [cbcDecryptBlock, hrec]
        rw [List.drop_drop]
        rw [show 16 + 16 * n = 16 * (n + 1) by ring]
      · rw [List.length_append, hplain, hexlen]; ring

theorem readBlocks_no_badPassword (c : Crypto) (key : Bytes) :
    ∀ (n : Nat) (st s : Bytes), readBlocks c key n st s ≠ .error .badPassword := by
  intro n
  induction n with
  | zero => intro st s; simp [readBlocks]
  | succ n ih =>
      intro st s
      simp only [readBlocks]
      split
      · simp
      · simp only [cbcDecryptBlock]
        cases hrec : readBlocks c key n (s.take 16) (s.drop 16) with
        | error e =>
            have := ih (s.take 16) (s.drop 16)
            rw [hrec] at this
            simpa [hrec] using this
        | ok t =>
            rcases t with ⟨a, b, s2⟩
            simp [hrec]

theorem read_field_tlv_no_badPassword (c : Crypto) (key st s : Bytes) :
    read_field_tlv c key st s ≠ .error .badPassword := by
  simp only [read_field_tlv]
  split
  · simp
  · split
    · simp
    · simp only [cbcDecryptBlock]
      split
      · rename_i hgt
        cases hrec : readBlocks c key
            ((unpackU32 ((xorBytes (c.ecbDec key (s.take 16)) st).take 4) + 4) / 16)
            (s.take 16) (s.drop 16) with
        | error e =>
            have := readBlocks_no_badPassword c key
              ((unpackU32 ((xorBytes (c.ecbDec key (s.take 16)) st).take 4) + 4) / 16)
              (s.take 16) (s.drop 16)
            rw [hrec] at this
            simpa [hrec] using this
        | ok t =>
            rcases t with ⟨a, b, s2⟩
            simp [hrec]
      · simp

theorem add_raw_field_error_eq (r : Record) (f : Field) (e : VErr)
    (h : r.add_raw_field f = .error e) : e = .valueError := by
  unfold Record.add_raw_field at h
  split at h
  · split at h
    · cases h
    · cases h; rfl
  · split at h
    · cases h
    · split at h
      · cases h
      · split at h
        · cases h
        · split at h
          · cases h
          · split at h
            · cases h
            · split at h
              · cases h
              · split at h
                · cases h
                · split at h
                  · cases h
                  · cases h

theorem readHeaderLoop_no_badPassword (c : Crypto) (key : Bytes) :
    ∀ (fuel : Nat) (st hm : Bytes) (hdr : Header) (s : Bytes),
      readHeaderLoop c key fuel st hm hdr s ≠ .error .badPassword := by
  intro fuel
  induction fuel with
  | zero => intro st hm hdr s; simp [readHeaderLoop]
  | succ fuel ih =>
      intro st hm hdr s
      simp only [readHeaderLoop]
      cases hf : read_field_tlv c key st s with
      | error e =>
          have := read_field_tlv_no_badPassword c key st s
          rw [hf] at this
          simpa using this
      | ok t =>
          rcases t with ⟨f, st1, s1⟩
          cases f with
          | none => simp
          | some f =>
              simp only
              split
              · simp
              · exact ih st1 (hm ++ f.raw_value) (hdr.add_raw_field f) s1

theorem readRecordsLoop_no_badPassword (c : Crypto) (key : Bytes) :
    ∀ (fuel : Nat) (st hm : Bytes) (recs : List Record) (cur : Record) (s : Bytes),
      readRecordsLoop c key fuel st hm recs cur s ≠ .error .badPassword := by
  intro fuel
  induction fuel with
  | zero => intro st hm recs cur s; simp [readRecordsLoop]
  | succ fuel ih =>
      intro st hm recs cur s
      simp only [readRecordsLoop]
      cases hf : read_field_tlv c key st s with
      | error e =>
          have := read_field_tlv_no_badPassword c key st s
          rw [hf] at this
          simpa using this
      | ok t =>
          rcases t with ⟨f, st1, s1⟩
          cases f with
          | none => simp
          | some f =>
              simp only
              split
              · exact ih st1 hm (recs ++ [cur]) {} s1
              · cases ha : cur.add_raw_field f with
                | error e =>
                    have := add_raw_field_error_eq cur f e ha
                    simp [ha, this]
                | ok cur1 => simpa [ha] using ih st1 (hm ++ f.raw_value) recs cur1 s1

theorem chunks16Fuel_congr : ∀ (f1 f2 : Nat) (d : Bytes), d.length ≤ f1 → d.length ≤ f2 →
    chunks16Fuel f1 d = chunks16Fuel f2 d := by
  intro f1
  induction f1 with
  | zero =>
      intro f2 d h1 _
      have hd : d = [] := List.eq_nil_of_length_eq_zero (Nat.le_zero.mp h1)
      subst hd
      cases f2 <;> rfl
  | succ n ih =>
      intro f2 d h1 h2
      cases d with
      | nil => cases f2 <;> rfl
      | cons x xs =>
          cases f2 with
          | zero => simp at h2
          | succ m =>
              show (x :: xs).take 16 :: chunks16Fuel n ((x :: xs).drop 16)
                  = (x :: xs).take 16 :: chunks16Fuel m ((x :: xs).drop 16)
              have hlen : ((x :: xs).drop 16).length ≤ n := by
                simp only [List.length_drop, List.length_cons] at *
                omega
              have hlen2 : ((x :: xs).drop 16).length ≤ m := by
                simp only [List.length_drop, List.length_cons] at *
                omega
              rw [ih _ _ hlen hlen2]

theorem chunks16_eq (d : Bytes) :
    chunks16 d = if d = [] then [] else d.take 16 :: chunks16 (d.drop 16) := by
  cases d with
  | nil => rfl
  | cons x xs =>
      rw [if_neg (by simp)]
      show (x :: xs).take 16 :: chunks16Fuel xs.length ((x :: xs).drop 16)
          = (x :: xs).take 16 :: chunks16 ((x :: xs).drop 16)
      rw [chunks16Fuel_congr xs.length ((x :: xs).drop 16).length ((x :: xs).drop 16)
        (by simp only [List.length_drop, List.length_cons]; omega) (le_refl _)]
      rfl

theorem chunks16_append16 (a b : Bytes) (ha : a.length = 16) :
    chunks16 (a ++ b) = a :: chunks16 b := by
  have hne : a ++ b ≠ [] := by
    intro hh
    have := (List.append_eq_nil.mp hh).1
    rw [this] at ha
    cases ha
  rw [chunks16_eq, if_neg hne, List.take_left' ha, List.drop_left' ha]

theorem chunks16_spec : ∀ (k : Nat) (d : Bytes), d.length = 16 * k →
    (∀ b ∈ chunks16 d, b.length = 16) ∧ (chunks16 d).flatten = d ∧
    (chunks16 d).length = k := by
  intro k
  induction k with
  | zero =>
      intro d hd
      have : d = [] := List.eq_nil_of_length_eq_zero (by omega)
      subst this
      simp [chunks16_eq]
  | succ k ih =>
      intro d hd
      have hne : d ≠ [] := by
        intro hh
        subst hh
        simp at hd
      rw [chunks16_eq, if_neg hne]
      have htake : (d.take 16).length = 16 := by rw [List.length_take]; omega
      have hdrop : (d.drop 16).length = 16 * k := by rw [List.length_drop]; omega
      rcases ih (d.drop 16) hdrop with ⟨ha, hb, hcnt⟩
      refine ⟨?_, ?_, ?_⟩
      · intro b hb2
        rcases List.mem_cons.mp hb2 with rfl | hb2
        · exact htake
        · exact ha b hb2
      · rw [List.flatten_cons, hb]
        exact List.take_append_drop 16 d
      · simp [hcnt]

theorem packU8_length (n : Nat) : (packU8 n).length = 1 := rfl

theorem take16_drop5_append (l : Bytes) : (l.take 16).drop 5 ++ l.drop 16 = l.drop 5 := by
  rw [List.drop_take]
  have h16 : l.drop 16 = (l.drop 5).drop 11 := by
    rw [List.drop_drop]
  rw [h16]
  show (l.drop 5).take 11 ++ (l.drop 5).drop 11 = l.drop 5
  exact List.take_append_drop 11 (l.drop 5)

theorem write_field_tlv_as_padded (c : Crypto) (key st : Bytes) (f : Field) :
    write_field_tlv c key st (some f) = cbcEncrypt c key st (paddedData c f) := rfl

theorem paddedData_eq (c : Crypto) (f : Field) :
    ∃ pad, paddedData c f
      = packU32 f.raw_len ++ packU8 f.raw_type ++ f.raw_value ++ pad := by
  simp only [paddedData]
  split
  · exact ⟨c.urandom (16 - (packU32 f.raw_len ++ packU8 f.raw_type ++ f.raw_value).length % 16),
      by simp [List.append_assoc]⟩
  · exact ⟨[], by simp⟩

theorem paddedData_length (c : Crypto) (hc : GoodCrypto c) (f : Field) :
    (paddedData c f).length = 16 * ((5 + f.raw_len + 15) / 16) := by
  have hdl : (packU32 f.raw_len ++ packU8 f.raw_type ++ f.raw_value).length
      = 5 + f.raw_len := by
    simp [packU32_length, packU8_length, Field.raw_len]
    omega
  simp only [paddedData]
  split
  · rename_i hmod
    rw [hdl] at hmod
    rw [List.length_append, hc.urandom_len, hdl]
    omega
  · rename_i hmod
    rw [not_not, hdl] at hmod
    rw [hdl]
    omega

theorem paddedData_facts (c : Crypto) (f : Field) (ht : f.raw_type < 256) :
    (paddedData c f).take 4 = packU32 f.raw_len ∧
    (paddedData c f).getD 4 0 = f.raw_type ∧
    ((paddedData c f).drop 5).take f.raw_len = f.raw_value := by
  obtain ⟨pad, hpd⟩ := paddedData_eq c f
  have hassoc : paddedData c f
      = packU32 f.raw_len ++ (packU8 f.raw_type ++ (f.raw_value ++ pad)) := by
    rw [hpd]; simp [List.append_assoc]
  have hassoc5 : paddedData c f
      = (packU32 f.raw_len ++ packU8 f.raw_type) ++ (f.raw_value ++ pad) := by
    rw [hpd]; simp [List.append_assoc]
  refine ⟨?_, ?_, ?_⟩
  · rw [hassoc]
    exact List.take_left' (packU32_length _)
  · have hget : (paddedData c f)[4]? = some (f.raw_type % 256) := by
      rw [hassoc]
      rw [List.getElem?_append_right (by rw [packU32_length])]
      simp [packU32_length, packU8]
    simp [List.getD, hget]
    omega
  · have hdrop : (paddedData c f).drop 5 = f.raw_value ++ pad := by
      rw [hassoc5]
      exact List.drop_left' (by rw [List.length_append, packU32_length, packU8_length])
    rw [hdrop]
    exact List.take_left' rfl

theorem cbcEncChunks_spec (c : Crypto) (hc : GoodCrypto c) (key : Bytes) :
    ∀ (ds : List Bytes) (st : Bytes), st.length = 16 → (∀ d ∈ ds, d.length = 16) →
      (∀ b ∈ (cbcEncChunks c key st ds).1, b.length = 16) ∧
      (cbcEncChunks c key st ds).2.length = 16 ∧
      (cbcEncChunks c key st ds).1.length = ds.length := by
  intro ds
  induction ds with
  | nil =>
      intro st hst _
      exact ⟨by simp [cbcEncChunks], by simpa [cbcEncChunks] using hst, by simp [cbcEncChunks]⟩
  | cons d ds ih =>
      intro st hst hds
      have hd : d.length = 16 := hds d (by simp)
      have hxor : (xorBytes d st).length = 16 := by rw [xorBytes_length, hd, hst]; omega
      have hcb : (c.ecbEnc key (xorBytes d st)).length = 16 := hc.enc_len key _ hxor
      rcases ih (c.ecbEnc key (xorBytes d st)) hcb (fun x hx => hds x (by simp [hx]))
        with ⟨h1, h2, h3⟩
      rcases hrec : cbcEncChunks c key (c.ecbEnc key (xorBytes d st)) ds with ⟨cbs, stf⟩
      rw [hrec] at h1 h2 h3
      refine ⟨?_, ?_, ?_⟩
      · intro b hb
        simp only [cbcEncChunks, hrec] at hb
        rcases List.mem_cons.mp hb with rfl | hb
        · exact hcb
        · exact h1 b hb
      · simpa [cbcEncChunks, hrec] using h2
      · simpa [cbcEncChunks, hrec] using h3

theorem readBlocks_of_enc (c : Crypto) (hc : GoodCrypto c) (key : Bytes) :
    ∀ (ds : List Bytes) (st rest : Bytes), st.length = 16 → (∀ d ∈ ds, d.length = 16) →
      readBlocks c key ds.length st ((cbcEncChunks c key st ds).1.flatten ++ rest)
        = .ok (ds.flatten, (cbcEncChunks c key st ds).2, rest) := by
  intro ds
  induction ds with
  | nil =>
      intro st rest _ _
      simp [cbcEncChunks, readBlocks]
  | cons d ds ih =>
      intro st rest hst hds
      have hd : d.length = 16 := hds d (by simp)
      have hxor : (xorBytes d st).length = 16 := by rw [xorBytes_length, hd, hst]; omega
      have hcb : (c.ecbEnc key (xorBytes d st)).length = 16 := hc.enc_len key _ hxor
      rcases hrec : cbcEncChunks c key (c.ecbEnc key (xorBytes d st)) ds with ⟨cbs, stf⟩
      have hihr := ih (c.ecbEnc key (xorBytes d st)) rest hcb
        (fun x hx => hds x (by simp [hx]))
      rw [hrec] at hihr
      simp only [cbcEncChunks, hrec, List.flatten_cons, List.length_cons]
      have hsplit : c.ecbEnc key (xorBytes d st) ++ cbs.flatten ++ rest
          = c.ecbEnc key (xorBytes d st) ++ (cbs.flatten ++ rest) := by
        simp [List.append_assoc]
      simp only [readBlocks]
      rw [hsplit, List.take_left' hcb, List.drop_left' hcb]
      rw [if_neg (by rw [hcb]; omega)]
      simp only [cbcDecryptBlock]
      rw [hc.dec_enc key _ hxor, xorBytes_xorBytes d st (by omega)]
      rw [hihr]

theorem read_field_tlv_of_write (c : Crypto) (hc : GoodCrypto c) (key st : Bytes)
    (f : Field) (rest : Bytes) (hst : st.length = 16) (ht : f.raw_type < 256)
    (hl : f.raw_len < 4294967296)
    (hcol : (write_field_tlv c key st (some f)).1.take 16 ≠ END_OF_FILE) :
    read_field_tlv c key st ((write_field_tlv c key st (some f)).1 ++ rest)
      = .ok (some f, (write_field_tlv c key st (some f)).2, rest) := by
  obtain ⟨htake4, hgetD, hval⟩ := paddedData_facts c f ht
  have hplen := paddedData_length c hc f
  have hk1 : 1 ≤ (5 + f.raw_len + 15) / 16 := by omega
  have hpd16 : 16 ≤ (paddedData c f).length := by omega
  have hpdne : paddedData c f ≠ [] := by
    intro hh
    rw [hh] at hpd16
    simp at hpd16
  have hch : chunks16 (paddedData c f)
      = (paddedData c f).take 16 :: chunks16 ((paddedData c f).drop 16) := by
    rw [chunks16_eq, if_neg hpdne]
  have hd1len : ((paddedData c f).take 16).length = 16 := by
    rw [List.length_take]; omega
  have hdroplen : ((paddedData c f).drop 16).length
      = 16 * ((5 + f.raw_len + 15) / 16 - 1) := by
    rw [List.length_drop]; omega
  rcases chunks16_spec _ _ hdroplen with ⟨hds16, hdsflat, hdscount⟩
  have hxor1 : (xorBytes ((paddedData c f).take 16) st).length = 16 := by
    rw [xorBytes_length, hd1len, hst]; omega
  have hcb1 : (c.ecbEnc key (xorBytes ((paddedData c f).take 16) st)).length = 16 :=
    hc.enc_len key _ hxor1
  rcases hcbc : cbcEncChunks c key (c.ecbEnc key (xorBytes ((paddedData c f).take 16) st))
      (chunks16 ((paddedData c f).drop 16)) with ⟨cbs, stf⟩
  have hbytes : (write_field_tlv c key st (some f)).1
      = c.ecbEnc key (xorBytes ((paddedData c f).take 16) st) ++ cbs.flatten := by
    rw [write_field_tlv_as_padded]
    simp only [cbcEncrypt, hch, cbcEncChunks, hcbc, List.flatten_cons]
  have hsnd : (write_field_tlv c key st (some f)).2 = stf := by
    rw [write_field_tlv_as_padded]
    simp only [cbcEncrypt, hch, cbcEncChunks, hcbc]
  have hs : (write_field_tlv c key st (some f)).1 ++ rest
      = c.ecbEnc key (xorBytes ((paddedData c f).take 16) st) ++ (cbs.flatten ++ rest) := by
    rw [hbytes]; simp [List.append_assoc]
  have hstake : ((write_field_tlv c key st (some f)).1 ++ rest).take 16
      = c.ecbEnc key (xorBytes ((paddedData c f).take 16) st) := by
    rw [hs]; exact List.take_left' hcb1
  have hsdrop : ((write_field_tlv c key st (some f)).1 ++ rest).drop 16
      = cbs.flatten ++ rest := by
    rw [hs]; exact List.drop_left' hcb1
  have hbtake : (write_field_tlv c key st (some f)).1.take 16
      = c.ecbEnc key (xorBytes ((paddedData c f).take 16) st) := by
    rw [hbytes]; exact List.take_left' hcb1
  have hcol2 : c.ecbEnc key (xorBytes ((paddedData c f).take 16) st) ≠ END_OF_FILE := by
    rw [← hbtake]; exact hcol
  have hplain : xorBytes
      (c.ecbDec key (c.ecbEnc key (xorBytes ((paddedData c f).take 16) st))) st
      = (paddedData c f).take 16 := by
    rw [hc.dec_enc key _ hxor1]
    exact xorBytes_xorBytes _ st (by rw [hd1len, hst])
  have hlen4 : ((paddedData c f).take 16).take 4 = packU32 f.raw_len := by
    rw [List.take_take]
    norm_num
    exact htake4
  have hgetD16 : ((paddedData c f).take 16).getD 4 0 = f.raw_type := by
    have hq : ((paddedData c f).take 16)[4]? = (paddedData c f)[4]? := by
      rw [List.getElem?_take]
      norm_num
    simp only [List.getD, hq]
    simpa [List.getD] using hgetD
  rw [hsnd]
  simp only [read_field_tlv]
  rw [hstake, hsdrop]
  rw [if_neg (by rw [hcb1]; omega), if_neg hcol2]
  simp only [cbcDecryptBlock]
  rw [hplain, hlen4, unpackU32_packU32 _ hl, hgetD16]
  by_cases h11 : f.raw_len > 11
  · rw [if_pos h11]
    have hcount : (f.raw_len + 4) / 16
        = (chunks16 ((paddedData c f).drop 16)).length := by
      rw [hdscount]; omega
    have hrb := readBlocks_of_enc c hc key (chunks16 ((paddedData c f).drop 16))
      (c.ecbEnc key (xorBytes ((paddedData c f).take 16) st)) rest hcb1 hds16
    rw [hcbc] at hrb
    rw [hcount, hrb]
    rw [hdsflat]
    have hfix : List.take f.raw_len (List.drop 5 (List.take 16 (paddedData c f))
        ++ List.drop 16 (paddedData c f)) = f.raw_value := by
      rw [take16_drop5_append]
      exact hval
    simp [hfix]
  · rw [if_neg h11]
    have hpdlen16 : (paddedData c f).length = 16 := by omega
    have hdropnil : (paddedData c f).drop 16 = [] :=
      List.drop_eq_nil_of_le (by omega)
    rw [hdropnil] at hcbc
    rw [chunks16_eq] at hcbc
    simp only [if_pos rfl, cbcEncChunks] at hcbc
    injection hcbc with hcbs hstf
    subst hcbs
    subst hstf
    have hpdall : (paddedData c f).take 16 = paddedData c f :=
      List.take_of_length_le (by omega)
    rw [hpdall, hval]
    simp

theorem flatten_length_16 : ∀ (l : List Bytes), (∀ b ∈ l, b.length = 16) →
    l.flatten.length = 16 * l.length := by
  intro l
  induction l with
  | nil => intro _; simp
  | cons b l ih =>
      intro hb
      rw [List.flatten_cons, List.length_append, hb b (by simp),
        ih (fun x hx => hb x (by simp [hx]))]
      simp only [List.length_cons]
      ring

theorem write_field_tlv_len (c : Crypto) (hc : GoodCrypto c) (key st : Bytes) (f : Field)
    (hst : st.length = 16) :
    (write_field_tlv c key st (some f)).1.length = 16 * ((5 + f.raw_len + 15) / 16) ∧
    (write_field_tlv c key st (some f)).2.length = 16 := by
  have hplen := paddedData_length c hc f
  rcases chunks16_spec _ _ hplen with ⟨h16, _, hcount⟩
  rcases cbcEncChunks_spec c hc key (chunks16 (paddedData c f)) st hst h16
    with ⟨hb16, hst2, hbcount⟩
  rw [write_field_tlv_as_padded]
  simp only [cbcEncrypt]
  constructor
  · rw [flatten_length_16 _ hb16, hbcount, hcount]
  · exact hst2

theorem write_field_seq_facts (c : Crypto) (hc : GoodCrypto c) (key : Bytes) :
    ∀ (fs : List Field) (st hm : Bytes), st.length = 16 →
      (write_field_seq c key st hm fs).2.1.length = 16 ∧
      16 * fs.length ≤ (write_field_seq c key st hm fs).1.length := by
  intro fs
  induction fs with
  | nil => intro st hm hst; exact ⟨hst, by simp [write_field_seq]⟩
  | cons f fs ih =>
      intro st hm hst
      rcases write_field_tlv_len c hc key st f hst with ⟨hb1, hst1⟩
      rcases htlv : write_field_tlv c key st (some f) with ⟨b1, st1⟩
      rw [htlv] at hb1 hst1
      rcases ih st1 (hm ++ f.raw_value) hst1 with ⟨h1, h2⟩
      rcases hseq : write_field_seq c key st1 (hm ++ f.raw_value) fs with ⟨bs, st2, hm2⟩
      rw [hseq] at h1 h2
      constructor
      · simpa [write_field_seq, htlv, hseq] using h1
      · have hbs : (write_field_seq c key st hm (f :: fs)).1 = b1 ++ bs := by
          simp [write_field_seq, htlv, hseq]
        have h2b : 16 * fs.length ≤ bs.length := h2
        rw [hbs, List.length_append]
        have h16 : 16 ≤ b1.length := by rw [hb1]; omega
        simp only [List.length_cons]
        omega

theorem write_field_seq_hm (c : Crypto) (key : Bytes) :
    ∀ (fs : List Field) (st hm : Bytes),
      (write_field_seq c key st hm fs).2.2 = hm ++ (fs.map Field.raw_value).flatten := by
  intro fs
  induction fs with
  | nil => intro st hm; simp [write_field_seq]
  | cons f fs ih =>
      intro st hm
      rcases htlv : write_field_tlv c key st (some f) with ⟨b1, st1⟩
      rcases hseq : write_field_seq c key st1 (hm ++ f.raw_value) fs with ⟨bs, st2, hm2⟩
      have hthis := ih st1 (hm ++ f.raw_value)
      rw [hseq] at hthis
      have h2 : hm2 = hm ++ f.raw_value ++ (List.map Field.raw_value fs).flatten := hthis
      simp only [write_field_seq, htlv, hseq, List.map_cons, List.flatten_cons]
      rw [h2]
      simp [List.append_assoc]

theorem write_field_seq_append (c : Crypto) (key : Bytes) :
    ∀ (a b : List Field) (st hm : Bytes),
      write_field_seq c key st hm (a ++ b)
        = ((write_field_seq c key st hm a).1
            ++ (write_field_seq c key (write_field_seq c key st hm a).2.1
                  (write_field_seq c key st hm a).2.2 b).1,
           (write_field_seq c key (write_field_seq c key st hm a).2.1
              (write_field_seq c key st hm a).2.2 b).2) := by
  intro a
  induction a with
  | nil => intro b st hm; simp [write_field_seq]
  | cons f a ih =>
      intro b st hm
      rcases htlv : write_field_tlv c key st (some f) with ⟨b1, st1⟩
      simp only [List.cons_append, write_field_seq, htlv, List.append_eq]
      rw [ih b st1 (hm ++ f.raw_value)]
      rcases hseq : write_field_seq c key st1 (hm ++ f.raw_value) a with ⟨bs, st2, hm2⟩
      simp [List.append_assoc]

theorem write_records_as_seq (c : Crypto) (key : Bytes) :
    ∀ (rs : List Record) (st hm : Bytes),
      write_records c key st hm rs
        = write_field_seq c key st hm
            ((rs.map (fun r => r.raw_fields.map Prod.snd ++ [eoeField])).flatten) := by
  intro rs
  induction rs with
  | nil => intro st hm; simp [write_records, write_field_seq]
  | cons r rs ih =>
      intro st hm
      simp only [List.map_cons, List.flatten_cons]
      rw [write_field_seq_append]
      rw [write_field_seq_append]
      rcases hseq : write_field_seq c key st hm (r.raw_fields.map Prod.snd)
        with ⟨b1, st1, hm1⟩
      simp only [write_records, hseq]
      rcases htlv : write_field_tlv c key st1 (some eoeField) with ⟨b2, st2⟩
      have heoe : write_field_seq c key st1 hm1 [eoeField]
          = (b2, st2, hm1 ++ eoeField.raw_value) := by
        simp [write_field_seq, htlv]
      simp only [heoe]
      rw [ih st2 (hm1 ++ eoeField.raw_value)]

theorem dictInsert_not_mem (d : List (Nat × Field)) (k : Nat) (v : Field)
    (h : k ∉ d.map Prod.fst) : dictInsert d k v = d ++ [(k, v)] := by
  unfold dictInsert
  rw [if_neg]
  intro hany
  rcases List.any_eq_true.mp hany with ⟨p, hp, hpk⟩
  exact h (List.mem_map.mpr ⟨p, hp, by simpa using hpk⟩)

theorem foldl_header_add (d : List (Nat × Field)) :
    ∀ (acc : List (Nat × Field)),
      (d.map Prod.fst).Nodup → (∀ p ∈ d, p.1 = p.2.raw_type) →
      (∀ p ∈ d, p.1 ∉ acc.map Prod.fst) →
      (d.map Prod.snd).foldl Header.add_raw_field ⟨acc⟩ = ⟨acc ++ d⟩ := by
  induction d with
  | nil => intro acc _ _ _; simp
  | cons p d ih =>
      intro acc hnodup hkeys hdis
      simp only [List.map_cons, List.foldl_cons]
      have hp1 : p.1 = p.2.raw_type := hkeys p (by simp)
      have hins : Header.add_raw_field ⟨acc⟩ p.2 = ⟨acc ++ [(p.1, p.2)]⟩ := by
        simp only [Header.add_raw_field]
        rw [← hp1, dictInsert_not_mem _ _ _ (hdis p (by simp))]
      rw [hins]
      rw [List.map_cons, List.nodup_cons] at hnodup
      have hstep := ih (acc ++ [(p.1, p.2)]) hnodup.2
        (fun q hq => hkeys q (by simp [hq]))
        (fun q hq => by
          rw [List.map_append, List.mem_append]
          rintro (hmem | hmem)
          · exact hdis q (by simp [hq]) hmem
          · rw [List.map_singleton, List.mem_singleton] at hmem
            exact hnodup.1 (hmem ▸ List.mem_map.mpr ⟨q, hq, rfl⟩))
      rw [hstep]
      simp

theorem buildRecord_spec (d : List (Nat × Field)) :
    ∀ (cur : Record),
      (d.map Prod.fst).Nodup → (∀ p ∈ d, p.1 = p.2.raw_type ∧ rfieldOk p.2) →
      (∀ p ∈ d, p.1 ∉ cur.raw_fields.map Prod.fst) →
      ∃ r1, buildRecord cur (d.map Prod.snd) = .ok r1 ∧
        r1.raw_fields = cur.raw_fields ++ d := by
  induction d with
  | nil => intro cur _ _ _; exact ⟨cur, rfl, by simp⟩
  | cons p d ih =>
      intro cur hnodup hkeys hdis
      obtain ⟨r1, hr1⟩ := add_raw_field_ok cur p.2 (hkeys p (by simp)).2
      have hraw : r1.raw_fields = dictInsert cur.raw_fields p.2.raw_type p.2 :=
        add_raw_field_raw_fields _ _ _ hr1
      have hraw2 : r1.raw_fields = cur.raw_fields ++ [(p.1, p.2)] := by
        rw [hraw, ← (hkeys p (by simp)).1, dictInsert_not_mem _ _ _ (hdis p (by simp))]
      rw [List.map_cons, List.nodup_cons] at hnodup
      obtain ⟨r2, hb, hraw3⟩ := ih r1 hnodup.2
        (fun q hq => hkeys q (by simp [hq]))
        (fun q hq => by
          rw [hraw2, List.map_append, List.mem_append]
          rintro (hmem | hmem)
          · exact hdis q (by simp [hq]) hmem
          · rw [List.map_singleton, List.mem_singleton] at hmem
            exact hnodup.1 (hmem ▸ List.mem_map.mpr ⟨q, hq, rfl⟩))
      refine ⟨r2, ?_, ?_⟩
      · simp only [List.map_cons, buildRecord, hr1]
        exact hb
      · rw [hraw3, hraw2]
        simp

theorem readHeaderLoop_of_seq (c : Crypto) (hc : GoodCrypto c) (key : Bytes) :
    ∀ (fs : List Field) (st hm : Bytes) (hdr : Header) (fuel : Nat) (tail : Bytes),
      st.length = 16 → (∀ f ∈ fs, hfieldOk f) → fieldBlocksOk c key st fs →
      readHeaderLoop c key (fuel + fs.length) st hm hdr
          ((write_field_seq c key st hm fs).1 ++ tail)
        = readHeaderLoop c key fuel (write_field_seq c key st hm fs).2.1
            (write_field_seq c key st hm fs).2.2 (fs.foldl Header.add_raw_field hdr) tail := by
  intro fs
  induction fs with
  | nil =>
      intro st hm hdr fuel tail _ _ _
      simp [write_field_seq]
  | cons f fs ih =>
      intro st hm hdr fuel tail hst hok hcol
      rcases htlv : write_field_tlv c key st (some f) with ⟨b1, st1⟩
      have hst1 : st1.length = 16 := by
        have hh := (write_field_tlv_len c hc key st f hst).2
        rw [htlv] at hh
        exact hh
      simp only [fieldBlocksOk, htlv] at hcol
      obtain ⟨hcol1, hcolrest⟩ := hcol
      rcases hseq : write_field_seq c key st1 (hm ++ f.raw_value) fs with ⟨bs, st2, hm2⟩
      have hread := read_field_tlv_of_write c hc key st f (bs ++ tail) hst
        (hok f (by simp)).1 (hok f (by simp)).2.2 (by rw [htlv]; exact hcol1)
      simp only [htlv] at hread
      have hbytes : (write_field_seq c key st hm (f :: fs)).1 = b1 ++ bs := by
        simp [write_field_seq, htlv, hseq]
      have hra : (write_field_seq c key st hm (f :: fs)).1 ++ tail = b1 ++ (bs ++ tail) := by
        rw [hbytes, List.append_assoc]
      have hproj1 : (write_field_seq c key st hm (f :: fs)).2.1 = st2 := by
        simp [write_field_seq, htlv, hseq]
      have hproj2 : (write_field_seq c key st hm (f :: fs)).2.2 = hm2 := by
        simp [write_field_seq, htlv, hseq]
      rw [hra, hproj1, hproj2]
      have hfuel : fuel + (f :: fs).length = (fuel + fs.length) + 1 := by
        rw [List.length_cons]
        omega
      rw [hfuel]
      simp only [readHeaderLoop, hread]
      rw [if_neg (hok f (by simp)).2.1]
      have hih := ih st1 (hm ++ f.raw_value) (hdr.add_raw_field f) fuel tail hst1
        (fun g hg => hok g (by simp [hg])) hcolrest
      simp only [hseq] at hih
      simpa [List.foldl_cons] using hih

theorem readHeaderLoop_eoe (c : Crypto) (hc : GoodCrypto c) (key st hm : Bytes)
    (hdr : Header) (fuel : Nat) (tail : Bytes) (hst : st.length = 16)
    (hcol : (write_field_tlv c key st (some eoeField)).1.take 16 ≠ END_OF_FILE) :
    readHeaderLoop c key (fuel + 1) st hm hdr
        ((write_field_tlv c key st (some eoeField)).1 ++ tail)
      = .ok (hdr, (write_field_tlv c key st (some eoeField)).2, hm, tail) := by
  have hread := read_field_tlv_of_write c hc key st eoeField tail hst
    (by decide) (by decide) hcol
  simp only [readHeaderLoop, hread]
  rw [if_pos (show eoeField.raw_type = END_OF_ENTRY from rfl)]

theorem readRecordsLoop_eoe (c : Crypto) (hc : GoodCrypto c) (key st hm : Bytes)
    (recs : List Record) (cur : Record) (fuel : Nat) (tail : Bytes) (hst : st.length = 16)
    (hcol : (write_field_tlv c key st (some eoeField)).1.take 16 ≠ END_OF_FILE) :
    readRecordsLoop c key (fuel + 1) st hm recs cur
        ((write_field_tlv c key st (some eoeField)).1 ++ tail)
      = readRecordsLoop c key fuel (write_field_tlv c key st (some eoeField)).2 hm
          (recs ++ [cur]) {} tail := by
  have hread := read_field_tlv_of_write c hc key st eoeField tail hst
    (by decide) (by decide) hcol
  simp only [readRecordsLoop, hread]
  rw [if_pos (show eoeField.raw_type = END_OF_ENTRY from rfl)]

theorem readRecordsLoop_eof (c : Crypto) (key st hm : Bytes) (recs : List Record)
    (cur : Record) (fuel : Nat) (tail : Bytes) :
    readRecordsLoop c key (fuel + 1) st hm recs cur (END_OF_FILE ++ tail)
      = .ok (recs, st, hm, tail) := by
  have hread : read_field_tlv c key st (END_OF_FILE ++ tail) = .ok (none, st, tail) := by
    simp only [read_field_tlv]
    rw [List.take_left' (show END_OF_FILE.length = 16 from rfl),
      List.drop_left' (show END_OF_FILE.length = 16 from rfl)]
    rw [if_neg (by decide), if_pos rfl]
  simp only [readRecordsLoop, hread]

theorem fieldBlocksOk_append (c : Crypto) (key : Bytes) :
    ∀ (a b : List Field) (st hm : Bytes),
      fieldBlocksOk c key st (a ++ b)
        ↔ fieldBlocksOk c key st a
            ∧ fieldBlocksOk c key (write_field_seq c key st hm a).2.1 b := by
  intro a
  induction a with
  | nil =>
      intro b st hm
      simp [fieldBlocksOk, write_field_seq]
  | cons f a ih =>
      intro b st hm
      rcases htlv : write_field_tlv c key st (some f) with ⟨b1, st1⟩
      simp only [List.cons_append, fieldBlocksOk, htlv, write_field_seq, List.append_eq]
      rw [ih b st1 (hm ++ f.raw_value)]
      rcases hseq : write_field_seq c key st1 (hm ++ f.raw_value) a with ⟨bs, st2, hm2⟩
      simp [and_assoc]

theorem readRecordsLoop_of_seq (c : Crypto) (hc : GoodCrypto c) (key : Bytes) :
    ∀ (fs : List Field) (st hm : Bytes) (recs : List Record) (cur cur1 : Record)
      (fuel : Nat) (tail : Bytes),
      st.length = 16 → (∀ f ∈ fs, rfieldOk f) → fieldBlocksOk c key st fs →
      buildRecord cur fs = .ok cur1 →
      readRecordsLoop c key (fuel + fs.length) st hm recs cur
          ((write_field_seq c key st hm fs).1 ++ tail)
        = readRecordsLoop c key fuel (write_field_seq c key st hm fs).2.1
            (write_field_seq c key st hm fs).2.2 recs cur1 tail := by
  intro fs
  induction fs with
  | nil =>
      intro st hm recs cur cur1 fuel tail _ _ _ hb
      cases hb
      simp [write_field_seq]
  | cons f fs ih =>
      intro st hm recs cur cur1 fuel tail hst hok hcol hb
      rcases htlv : write_field_tlv c key st (some f) with ⟨b1, st1⟩
      have hst1 : st1.length = 16 := by
        have hh := (write_field_tlv_len c hc key st f hst).2
        rw [htlv] at hh
        exact hh
      simp only [fieldBlocksOk, htlv] at hcol
      obtain ⟨hcol1, hcolrest⟩ := hcol
      rcases hseq : write_field_seq c key st1 (hm ++ f.raw_value) fs with ⟨bs, st2, hm2⟩
      have hread := read_field_tlv_of_write c hc key st f (bs ++ tail) hst
        (hok f (by simp)).1.1 (hok f (by simp)).1.2.2 (by rw [htlv]; exact hcol1)
      simp only [htlv] at hread
      simp only [buildRecord] at hb
      cases ha : cur.add_raw_field f with
      | error e =>
          simp only [ha] at hb
          cases hb
      | ok cur2 =>
          simp only [ha] at hb
          have hbytes : (write_field_seq c key st hm (f :: fs)).1 = b1 ++ bs := by
            simp [write_field_seq, htlv, hseq]
          have hra : (write_field_seq c key st hm (f :: fs)).1 ++ tail
              = b1 ++ (bs ++ tail) := by
            rw [hbytes, List.append_assoc]
          have hproj1 : (write_field_seq c key st hm (f :: fs)).2.1 = st2 := by
            simp [write_field_seq, htlv, hseq]
          have hproj2 : (write_field_seq c key st hm (f :: fs)).2.2 = hm2 := by
            simp [write_field_seq, htlv, hseq]
          rw [hra, hproj1, hproj2]
          have hfuel : fuel + (f :: fs).length = (fuel + fs.length) + 1 := by
            rw [List.length_cons]
            omega
          rw [hfuel]
          simp only [readRecordsLoop, hread]
          rw [if_neg (hok f (by simp)).1.2.1]
          rw [ha]
          have hih := ih st1 (hm ++ f.raw_value) recs cur2 cur1 fuel tail hst1
            (fun g hg => hok g (by simp [hg])) hcolrest hb
          simp only [hseq] at hih
          exact hih

theorem readRecordsLoop_of_records (c : Crypto) (hc : GoodCrypto c) (key : Bytes) :
    ∀ (rs : List Record) (st hm : Bytes) (recs : List Record) (fuel : Nat) (tail : Bytes),
      st.length = 16 → (∀ r ∈ rs, dictOk rfieldOk r.raw_fields) →
      fieldBlocksOk c key st
        ((rs.map (fun r => r.raw_fields.map Prod.snd ++ [eoeField])).flatten) →
      ∃ rs', rs'.map Record.raw_fields = rs.map Record.raw_fields ∧
        readRecordsLoop c key
            (fuel + ((rs.map (fun r => r.raw_fields.map Prod.snd ++ [eoeField])).flatten).length)
            st hm recs {}
            ((write_records c key st hm rs).1 ++ tail)
          = readRecordsLoop c key fuel (write_records c key st hm rs).2.1
              (write_records c key st hm rs).2.2 (recs ++ rs') {} tail := by
  intro rs
  induction rs with
  | nil =>
      intro st hm recs fuel tail _ _ _
      exact ⟨[], rfl, by simp [write_records]⟩
  | cons r rs ih =>
      intro st hm recs fuel tail hst hok hcol
      rcases hseq1 : write_field_seq c key st hm (r.raw_fields.map Prod.snd)
        with ⟨b1, st1, hm1⟩
      have hst1 : st1.length = 16 := by
        have hh := (write_field_seq_facts c hc key (r.raw_fields.map Prod.snd) st hm hst).1
        rw [hseq1] at hh
        exact hh
      rcases htlv : write_field_tlv c key st1 (some eoeField) with ⟨b2, st2⟩
      have hst2 : st2.length = 16 := by
        have hh := (write_field_tlv_len c hc key st1 eoeField hst1).2
        rw [htlv] at hh
        exact hh
      rcases hrec : write_records c key st2 (hm1 ++ eoeField.raw_value) rs
        with ⟨b3, st3, hm3⟩
      have hrec1 : write_records c key st2 hm1 rs = (b3, st3, hm3) := by
        simpa [eoeField] using hrec
      have hwr : write_records c key st hm (r :: rs) = (b1 ++ b2 ++ b3, st3, hm3) := by
        simp [write_records, hseq1, htlv, hrec]
      -- split the collision condition
      simp only [List.map_cons, List.flatten_cons] at hcol
      have hcolA := (fieldBlocksOk_append c key (r.raw_fields.map Prod.snd)
        ([eoeField] ++ (rs.map (fun r => r.raw_fields.map Prod.snd ++ [eoeField])).flatten)
        st hm).mp (by
          rw [← List.append_assoc]
          exact hcol)
      rw [hseq1] at hcolA
      obtain ⟨hcolF, hcolB⟩ := hcolA
      have hcolC := (fieldBlocksOk_append c key [eoeField]
        ((rs.map (fun r => r.raw_fields.map Prod.snd ++ [eoeField])).flatten)
        st1 hm1).mp hcolB
      obtain ⟨hcolE, hcolR⟩ := hcolC
      have hcolE1 : (write_field_tlv c key st1 (some eoeField)).1.take 16
          ≠ END_OF_FILE := by
        simp only [fieldBlocksOk, htlv] at hcolE
        rw [htlv]
        exact hcolE.1
      have hstEoe : (write_field_seq c key st1 hm1 [eoeField]).2.1 = st2 := by
        simp [write_field_seq, htlv]
      rw [hstEoe] at hcolR
      -- reconstruct the record
      obtain ⟨cur1, hbuild, hraw⟩ := buildRecord_spec r.raw_fields {}
        (hok r (by simp)).1 (fun p hp => (hok r (by simp)).2 p hp)
        (fun p _ => by simp)
      rw [List.nil_append] at hraw
      -- apply the induction hypothesis
      obtain ⟨rs2, hmap2, hih⟩ := ih st2 hm1 (recs ++ [cur1]) fuel tail hst2
        (fun q hq => hok q (by simp [hq])) hcolR
      rw [hrec1] at hih
      refine ⟨cur1 :: rs2, ?_, ?_⟩
      · simp [hraw, hmap2]
      · rw [hwr]
        have hassoc : (b1 ++ b2 ++ b3) ++ tail = b1 ++ (b2 ++ (b3 ++ tail)) := by
          simp [List.append_assoc]
        rw [hassoc]
        have hfuel : fuel
              + (((r :: rs).map (fun r => r.raw_fields.map Prod.snd ++ [eoeField])).flatten).length
            = ((fuel
                  + ((rs.map (fun r => r.raw_fields.map Prod.snd ++ [eoeField])).flatten).length)
                + 1) + (r.raw_fields.map Prod.snd).length := by
          simp only [List.map_cons, List.flatten_cons, List.length_append,
            List.length_cons, List.length_nil]
          omega
        rw [hfuel]
        have hokR : ∀ f ∈ r.raw_fields.map Prod.snd, rfieldOk f := by
          intro f hf
          rcases List.mem_map.mp hf with ⟨p, hp, rfl⟩
          exact ((hok r (by simp)).2 p hp).2
        have h1 := readRecordsLoop_of_seq c hc key (r.raw_fields.map Prod.snd) st hm
          recs {} cur1
          ((fuel + ((rs.map (fun r => r.raw_fields.map Prod.snd ++ [eoeField])).flatten).length)
            + 1)
          (b2 ++ (b3 ++ tail)) hst hokR hcolF hbuild
        simp only [hseq1] at h1
        rw [h1]
        have h2 := readRecordsLoop_eoe c hc key st1 hm1 recs cur1
          (fuel + ((rs.map (fun r => r.raw_fields.map Prod.snd ++ [eoeField])).flatten).length)
          (b3 ++ tail) hst1 hcolE1
        simp only [htlv] at h2
        rw [h2]
        simp only [hrec1] at hih
        rw [hih]
        simp [List.append_assoc]

theorem writeHeaderOf_dictOk (v : Vault) (now : Nat) (ws : Bytes)
    (h : dictOk hfieldOk v.header.raw_fields) (hws : ws.length < 4294967296) :
    dictOk hfieldOk (writeHeaderOf v now ws).raw_fields := by
  have h1 : dictOk hfieldOk
      (dictInsert v.header.raw_fields Headers.LAST_SAVE
        ⟨Headers.LAST_SAVE, packU32 now⟩) := by
    exact dictOk_dictInsert hfieldOk _ ⟨Headers.LAST_SAVE, packU32 now⟩ h
      ⟨by show (4 : Nat) < 256; decide, by show (4 : Nat) ≠ END_OF_ENTRY; decide,
       by simp [Field.raw_len, packU32_length]⟩
  exact dictOk_dictInsert hfieldOk _ ⟨Headers.WHAT_SAVED, ws⟩ h1
    ⟨by show (6 : Nat) < 256; decide, by show (6 : Nat) ≠ END_OF_ENTRY; decide,
     by simpa [Field.raw_len] using hws⟩

theorem read_from_stream_fields_no_badPassword (c : Crypto) (key_k key_l f_iv s9 : Bytes) :
    read_from_stream_fields c key_k key_l f_iv s9 ≠ .error .badPassword := by
  simp only [read_from_stream_fields]
  cases hh : readHeaderLoop c key_k (s9.length + 1) f_iv [] ⟨[]⟩ s9 with
  | error e =>
      have := readHeaderLoop_no_badPassword c key_k (s9.length + 1) f_iv [] ⟨[]⟩ s9
      rw [hh] at this
      simpa using this
  | ok t =>
      rcases t with ⟨hdr, st1, hm1, s10⟩
      simp only
      cases hr : readRecordsLoop c key_k (s10.length + 1) st1 hm1 [] {} s10 with
      | error e =>
          have := readRecordsLoop_no_badPassword c key_k (s10.length + 1) st1 hm1 [] {} s10
          rw [hr] at this
          simp only [hr]
          simpa using this
      | ok t2 =>
          rcases t2 with ⟨recs, x, hm2, s11⟩
          simp only [hr]
          split
          · simp
          · simp

theorem read_from_stream_of_parts (c : Crypto) (pw salt iterB shaps b1 b2 b3 b4 iv s9 : Bytes)
    (hsalt : salt.length = 32) (hiterB : iterB.length = 4) (hsha : shaps.length = 32)
    (hb1 : b1.length = 16) (hb2 : b2.length = 16) (hb3 : b3.length = 16)
    (hb4 : b4.length = 16) (hiv : iv.length = 16)
    (hmatch : shaps = c.sha256 (stretch_password c pw salt (unpackU32 iterB))) :
    read_from_stream c
        (FILE_MAGIC ++ salt ++ iterB ++ shaps ++ b1 ++ b2 ++ b3 ++ b4 ++ iv ++ s9) pw
      = (match read_from_stream_fields c
            (c.ecbDec (stretch_password c pw salt (unpackU32 iterB)) b1
              ++ c.ecbDec (stretch_password c pw salt (unpackU32 iterB)) b2)
            (c.ecbDec (stretch_password c pw salt (unpackU32 iterB)) b3
              ++ c.ecbDec (stretch_password c pw salt (unpackU32 iterB)) b4) iv s9 with
         | .error e => .error e
         | .ok (hdr, recs, f_hmac, _) =>
             .ok ⟨FILE_MAGIC, salt, unpackU32 iterB, shaps, b1, b2, b3, b4, iv,
                  f_hmac, hdr, recs⟩) := by
  have hassoc : FILE_MAGIC ++ salt ++ iterB ++ shaps ++ b1 ++ b2 ++ b3 ++ b4 ++ iv ++ s9
      = FILE_MAGIC
          ++ (salt ++ (iterB ++ (shaps ++ (b1 ++ (b2 ++ (b3 ++ (b4 ++ (iv ++ s9)))))))) := by
    simp [List.append_assoc]
  rw [hassoc]
  simp only [read_from_stream]
  rw [List.take_left' (show FILE_MAGIC.length = 4 from rfl),
    List.drop_left' (show FILE_MAGIC.length = 4 from rfl)]
  rw [List.take_left' hsalt, List.drop_left' hsalt]
  rw [List.take_left' hiterB, List.drop_left' hiterB]
  rw [List.take_left' hsha, List.drop_left' hsha]
  rw [List.take_left' hb1, List.drop_left' hb1]
  rw [List.take_left' hb2, List.drop_left' hb2]
  rw [List.take_left' hb3, List.drop_left' hb3]
  rw [List.take_left' hb4, List.drop_left' hb4]
  rw [List.take_left' hiv, List.drop_left' hiv]
  rw [if_neg (by simp)]
  rw [if_neg (by simp [hiterB])]
  rw [if_neg (by simp [hmatch])]

theorem write_to_stream_eq (c : Crypto) (now : Nat) (ws : Bytes) (v : Vault) (pw : Bytes) :
    write_to_stream c now ws v pw =
      (let key := writeKeyK c v pw
       let (hb, st1, hm1) := write_field_seq c key v.f_iv []
            ((writeHeaderOf v now ws).raw_fields.map Prod.snd)
       let (he, st2) := write_field_tlv c key st1 (some eoeField)
       let (rb, _st3, hm3) := write_records c key st2 (hm1 ++ eoeField.raw_value) v.records
       ({ v with header := writeHeaderOf v now ws,
                 f_sha_ps := c.sha256 (writeStretched c v pw),
                 f_hmac := c.hmacDigest (writeKeyL c v pw) hm3 },
        v.f_tag ++ v.f_salt ++ packU32 (writeIterOf v) ++ c.sha256 (writeStretched c v pw)
          ++ v.f_b1 ++ v.f_b2 ++ v.f_b3 ++ v.f_b4 ++ v.f_iv
          ++ hb ++ he ++ rb ++ END_OF_FILE ++ c.hmacDigest (writeKeyL c v pw) hm3)) := rfl

theorem write_to_stream_spec (c : Crypto) (now : Nat) (ws : Bytes) (v : Vault) (pw : Bytes)
    (hb st1 hm1 he st2 rb st3 hm3 : Bytes)
    (h1 : write_field_seq c (writeKeyK c v pw) v.f_iv []
            ((writeHeaderOf v now ws).raw_fields.map Prod.snd) = (hb, st1, hm1))
    (h2 : write_field_tlv c (writeKeyK c v pw) st1 (some eoeField) = (he, st2))
    (h3 : write_records c (writeKeyK c v pw) st2 (hm1 ++ eoeField.raw_value) v.records
            = (rb, st3, hm3)) :
    write_to_stream c now ws v pw =
      ({ v with header := writeHeaderOf v now ws,
                f_sha_ps := c.sha256 (writeStretched c v pw),
                f_hmac := c.hmacDigest (writeKeyL c v pw) hm3 },
       v.f_tag ++ v.f_salt ++ packU32 (writeIterOf v) ++ c.sha256 (writeStretched c v pw)
         ++ v.f_b1 ++ v.f_b2 ++ v.f_b3 ++ v.f_b4 ++ v.f_iv
         ++ hb ++ he ++ rb ++ END_OF_FILE ++ c.hmacDigest (writeKeyL c v pw) hm3) := by
  rw [write_to_stream_eq]
  simp only [h1, h2, h3]

/-! ## Claim theorems -/

/-- **C5.** Assigning through any typed setter other than `created` and
`last_mod` (`uuid`, `group`, `title`, `user`, `notes`, `passwd`, `url`)
replaces the corresponding entry in `raw_fields` with the re-encoded value
and sets `last_mod` — both the typed view and `raw_fields[0x0c]` — to the
time of the call (`now` models `int(time.time())`, so the stored timestamp
equals, hence is `≥`, the time of the call); the `created` and `last_mod`
setters update their own raw entry without bumping `last_mod`. -/
theorem c5_typed_setters (r : Record) (now n : Nat) (b : Bytes) :
    ((r.set_uuid now b)._last_mod = now ∧ (r.set_uuid now b)._uuid = some b ∧
      dictGet (r.set_uuid now b).raw_fields Fields.UUID = some ⟨Fields.UUID, b⟩ ∧
      dictGet (r.set_uuid now b).raw_fields Fields.LAST_MOD
        = some ⟨Fields.LAST_MOD, packU32 now⟩) ∧
    ((r.set_group now b)._last_mod = now ∧ (r.set_group now b)._group = b ∧
      dictGet (r.set_group now b).raw_fields Fields.GROUP
        = some ⟨Fields.GROUP, utf8Encode b⟩ ∧
      dictGet (r.set_group now b).raw_fields Fields.LAST_MOD
        = some ⟨Fields.LAST_MOD, packU32 now⟩) ∧
    ((r.set_title now b)._last_mod = now ∧ (r.set_title now b)._title = b ∧
      dictGet (r.set_title now b).raw_fields Fields.TITLE
        = some ⟨Fields.TITLE, utf8Encode b⟩ ∧
      dictGet (r.set_title now b).raw_fields Fields.LAST_MOD
        = some ⟨Fields.LAST_MOD, packU32 now⟩) ∧
    ((r.set_user now b)._last_mod = now ∧ (r.set_user now b)._user = b ∧
      dictGet (r.set_user now b).raw_fields Fields.USER
        = some ⟨Fields.USER, utf8Encode b⟩ ∧
      dictGet (r.set_user now b).raw_fields Fields.LAST_MOD
        = some ⟨Fields.LAST_MOD, packU32 now⟩) ∧
    ((r.set_notes now b)._last_mod = now ∧ (r.set_notes now b)._notes = b ∧
      dictGet (r.set_notes now b).raw_fields Fields.NOTES
        = some ⟨Fields.NOTES, utf8Encode b⟩ ∧
      dictGet (r.set_notes now b).raw_fields Fields.LAST_MOD
        = some ⟨Fields.LAST_MOD, packU32 now⟩) ∧
    ((r.set_passwd now b)._last_mod = now ∧ (r.set_passwd now b)._passwd = b ∧
      dictGet (r.set_passwd now b).raw_fields Fields.PASSWD
        = some ⟨Fields.PASSWD, utf8Encode b⟩ ∧
      dictGet (r.set_passwd now b).raw_fields Fields.LAST_MOD
        = some ⟨Fields.LAST_MOD, packU32 now⟩) ∧
    ((r.set_url now b)._last_mod = now ∧ (r.set_url now b)._url = b ∧
      dictGet (r.set_url now b).raw_fields Fields.URL
        = some ⟨Fields.URL, utf8Encode b⟩ ∧
      dictGet (r.set_url now b).raw_fields Fields.LAST_MOD
        = some ⟨Fields.LAST_MOD, packU32 now⟩) ∧
    ((r.set_created n)._created = n ∧ (r.set_created n)._last_mod = r._last_mod ∧
      dictGet (r.set_created n).raw_fields Fields.CREATED
        = some ⟨Fields.CREATED, packU32 n⟩ ∧
      dictGet (r.set_created n).raw_fields Fields.LAST_MOD
        = dictGet r.raw_fields Fields.LAST_MOD) ∧
    ((r.set_last_mod n)._last_mod = n ∧ (r.set_last_mod n)._created = r._created ∧
      dictGet (r.set_last_mod n).raw_fields Fields.LAST_MOD
        = some ⟨Fields.LAST_MOD, packU32 n⟩ ∧
      dictGet (r.set_last_mod n).raw_fields Fields.CREATED
        = dictGet r.raw_fields Fields.CREATED) := by
  refine ⟨⟨rfl, rfl, ?_, ?_⟩, ⟨rfl, rfl, ?_, ?_⟩, ⟨rfl, rfl, ?_, ?_⟩, ⟨rfl, rfl, ?_, ?_⟩,
    ⟨rfl, rfl, ?_, ?_⟩, ⟨rfl, rfl, ?_, ?_⟩, ⟨rfl, rfl, ?_, ?_⟩,
    ⟨rfl, rfl, ?_, ?_⟩, ⟨rfl, rfl, ?_, ?_⟩⟩
  · exact (setter_dict_facts r.raw_fields Fields.UUID _ _ (by decide)).1
  · exact (setter_dict_facts r.raw_fields Fields.UUID _ _ (by decide)).2
  · exact (setter_dict_facts r.raw_fields Fields.GROUP _ _ (by decide)).1
  · exact (setter_dict_facts r.raw_fields Fields.GROUP _ _ (by decide)).2
  · exact (setter_dict_facts r.raw_fields Fields.TITLE _ _ (by decide)).1
  · exact (setter_dict_facts r.raw_fields Fields.TITLE _ _ (by decide)).2
  · exact (setter_dict_facts r.raw_fields Fields.USER _ _ (by decide)).1
  · exact (setter_dict_facts r.raw_fields Fields.USER _ _ (by decide)).2
  · exact (setter_dict_facts r.raw_fields Fields.NOTES _ _ (by decide)).1
  · exact (setter_dict_facts r.raw_fields Fields.NOTES _ _ (by decide)).2
  · exact (setter_dict_facts r.raw_fields Fields.PASSWD _ _ (by decide)).1
  · exact (setter_dict_facts r.raw_fields Fields.PASSWD _ _ (by decide)).2
  · exact (setter_dict_facts r.raw_fields Fields.URL _ _ (by decide)).1
  · exact (setter_dict_facts r.raw_fields Fields.URL _ _ (by decide)).2
  · exact dictGet_dictInsert_self r.raw_fields Fields.CREATED _
  · exact dictGet_dictInsert_ne r.raw_fields Fields.CREATED Fields.LAST_MOD _ (by decide)
  · exact dictGet_dictInsert_self r.raw_fields Fields.LAST_MOD _
  · exact dictGet_dictInsert_ne r.raw_fields Fields.LAST_MOD Fields.CREATED _ (by decide)

/-- **C9.** `raw_fields` holds at most one `Field` per `raw_type`:
`add_raw_field` (on both `Header` and `Record`) keys the dictionary by
`raw_type` and overwrites any existing entry of the same type, so of two
same-typed fields added in sequence (as when a decoded stream carries
duplicates inside one record or the header) only the later one is kept. -/
theorem c9_add_raw_field_overwrites (h : Header) (r : Record) (f g : Field)
    (r1 r2 : Record) (hfg : g.raw_type = f.raw_type)
    (hnodH : (h.raw_fields.map Prod.fst).Nodup)
    (hnodR : (r.raw_fields.map Prod.fst).Nodup)
    (hr1 : r.add_raw_field f = .ok r1) (hr2 : r1.add_raw_field g = .ok r2) :
    dictGet (h.add_raw_field f).raw_fields f.raw_type = some f ∧
    (∀ k, k ≠ f.raw_type →
      dictGet (h.add_raw_field f).raw_fields k = dictGet h.raw_fields k) ∧
    dictGet ((h.add_raw_field f).add_raw_field g).raw_fields f.raw_type = some g ∧
    ((h.add_raw_field f).raw_fields.map Prod.fst).Nodup ∧
    ((h.add_raw_field f).raw_fields.map Prod.fst).count f.raw_type = 1 ∧
    dictGet r1.raw_fields f.raw_type = some f ∧
    dictGet r2.raw_fields f.raw_type = some g ∧
    (r1.raw_fields.map Prod.fst).Nodup ∧
    (r1.raw_fields.map Prod.fst).count f.raw_type = 1 := by
  have er1 : r1.raw_fields = dictInsert r.raw_fields f.raw_type f :=
    add_raw_field_raw_fields r f r1 hr1
  have er2 : r2.raw_fields = dictInsert r1.raw_fields g.raw_type g :=
    add_raw_field_raw_fields r1 g r2 hr2
  refine ⟨dictGet_dictInsert_self _ _ _, ?_, ?_, ?_, ?_, ?_, ?_, ?_, ?_⟩
  · intro k hk
    exact dictGet_dictInsert_ne _ _ _ _ hk
  · show dictGet (dictInsert (dictInsert h.raw_fields f.raw_type f) g.raw_type g)
      f.raw_type = some g
    rw [hfg]
    exact dictGet_dictInsert_self _ _ _
  · exact dictInsert_keys_nodup _ _ _ hnodH
  · exact List.count_eq_one_of_mem (dictInsert_keys_nodup _ _ _ hnodH)
      (dictInsert_key_mem _ _ _)
  · rw [er1]; exact dictGet_dictInsert_self _ _ _
  · rw [er2, er1, hfg]; exact dictGet_dictInsert_self _ _ _
  · rw [er1]; exact dictInsert_keys_nodup _ _ _ hnodR
  · rw [er1]
    exact List.count_eq_one_of_mem (dictInsert_keys_nodup _ _ _ hnodR)
      (dictInsert_key_mem _ _ _)

/-- Witness for C9 at a concrete input: two `GROUP` (0x02) fields added in
sequence to a fresh record leave a single entry holding the later value. -/
theorem c9_witness :
    dictGet (Loxodo.Record.mk [(2, ⟨2, [66]⟩)] none [66] [] [] [] [] 0 0 []).raw_fields 2
      = some ⟨2, [66]⟩ :=
  (c9_add_raw_field_overwrites ⟨[]⟩ {} ⟨2, [65]⟩ ⟨2, [66]⟩
    ⟨[(2, ⟨2, [65]⟩)], none, [65], [], [], [], [], 0, 0, []⟩
    ⟨[(2, ⟨2, [66]⟩)], none, [66], [], [], [], [], 0, 0, []⟩
    rfl (by decide) (by decide) rfl rfl).2.2.2.2.2.2.1

/-- **C10.** A `LAST_MOD` (0x0c) or `CREATED` (0x07) field whose value is
not exactly 4 bytes is stored raw by `Record.add_raw_field` without
raising an error, and the typed `last_mod`/`created` views are left
unchanged. -/
theorem c10_malformed_timestamp (r : Record) (f : Field)
    (ht : f.raw_type = Fields.LAST_MOD ∨ f.raw_type = Fields.CREATED)
    (hlen : f.raw_value.length ≠ 4) :
    ∃ r1, r.add_raw_field f = .ok r1 ∧
      r1.raw_fields = dictInsert r.raw_fields f.raw_type f ∧
      dictGet r1.raw_fields f.raw_type = some f ∧
      r1._last_mod = r._last_mod ∧ r1._created = r._created := by
  have hr : r.add_raw_field f
      = .ok { r with raw_fields := dictInsert r.raw_fields f.raw_type f } := by
    rcases ht with ht | ht <;>
      simp [Record.add_raw_field, ht, hlen, Field.raw_len, Fields.UUID, Fields.GROUP,
        Fields.TITLE, Fields.USER, Fields.NOTES, Fields.PASSWD, Fields.LAST_MOD,
        Fields.CREATED, Fields.URL]
  exact ⟨_, hr, rfl, dictGet_dictInsert_self _ _ _, rfl, rfl⟩

/-- **C4.** `write_to_stream` emits `max(f_iter, 262144)` as the u32
little-endian keystretch iteration count (right after the 4-byte magic and
the 32-byte salt) and stretches the passphrase with that same, possibly
raised, count; the emitted count is never below the V3 minimum 262144. -/
theorem c4_min_iterations (c : Crypto) (v : Vault) (pw : Bytes) (now : Nat) (ws : Bytes)
    (hiter : v.f_iter < 4294967296) :
    (∃ rest,
      (write_to_stream c now ws v pw).2
        = v.f_tag ++ v.f_salt ++ u32le (max v.f_iter write_iter)
            ++ c.sha256 (stretch_password c pw v.f_salt (max v.f_iter write_iter)) ++ rest) ∧
    262144 ≤ max v.f_iter write_iter ∧
    (write_to_stream c now ws v pw).1.f_sha_ps
      = c.sha256 (stretch_password c pw v.f_salt (max v.f_iter write_iter)) := by
  rcases h1 : write_field_seq c (writeKeyK c v pw) v.f_iv []
      ((writeHeaderOf v now ws).raw_fields.map Prod.snd) with ⟨hb, st1, hm1⟩
  rcases h2 : write_field_tlv c (writeKeyK c v pw) st1 (some eoeField) with ⟨he, st2⟩
  rcases h3 : write_records c (writeKeyK c v pw) st2 (hm1 ++ eoeField.raw_value) v.records
    with ⟨rb, st3, hm3⟩
  rw [write_to_stream_spec c now ws v pw hb st1 hm1 he st2 rb st3 hm3 h1 h2 h3]
  refine ⟨⟨v.f_b1 ++ v.f_b2 ++ v.f_b3 ++ v.f_b4 ++ v.f_iv ++ hb ++ he ++ rb ++ END_OF_FILE
      ++ c.hmacDigest (writeKeyL c v pw) hm3, ?_⟩,
    by simp only [write_iter]; omega, rfl⟩
  simp only [writeIterOf, writeStretched]
  rw [packU32_eq _ (by simp only [write_iter]; omega)]
  simp only [List.append_assoc]

/-- **C2 (amended).** For a field whose decrypted length prefix is `L > 11`,
`_read_field_tlv` reads exactly `(L+4) div 16` (integer division, equal to
`ceil((L-11)/16)`, not `ceil((L+4)/16)`) additional 16-byte ciphertext
blocks after the first one — consuming `16 * (1 + (L+4) div 16)` stream
bytes in total — appends their decrypts, and truncates the concatenated
value to exactly `L` bytes, returning a field with `len(value) = L`. -/
theorem c2_tlv_read_blocks (c : Crypto) (hc : GoodCrypto c) (key st s : Bytes) (L : Nat)
    (hst : st.length = 16) (hs16 : s.take 16 ≠ END_OF_FILE)
    (hL : unpackU32 ((xorBytes (c.ecbDec key (s.take 16)) st).take 4) = L)
    (hL11 : L > 11) (hlen : 16 * (1 + (L + 4) / 16) ≤ s.length) :
    ∃ f st2, read_field_tlv c key st s
        = .ok (some f, st2, s.drop (16 * (1 + (L + 4) / 16))) ∧
      f.raw_value.length = L ∧
      f.raw_type = (xorBytes (c.ecbDec key (s.take 16)) st).getD 4 0 ∧
      (L + 4) / 16 = (L - 11 + 15) / 16 := by
  have hdata : (s.take 16).length = 16 := by rw [List.length_take]; omega
  have hplain : (xorBytes (c.ecbDec key (s.take 16)) st).length = 16 := by
    rw [xorBytes_length, hc.dec_len key _ hdata, hst]; omega
  rcases readBlocks_spec c hc key ((L + 4) / 16) (s.take 16) (s.drop 16) hdata
      (by rw [List.length_drop]; omega) with ⟨extra, st2, hrb, hexlen, hst2⟩
  refine ⟨⟨(xorBytes (c.ecbDec key (s.take 16)) st).getD 4 0,
      ((xorBytes (c.ecbDec key (s.take 16)) st).drop 5 ++ extra).take L⟩, st2,
      ?_, ?_, rfl, by omega⟩
  · simp only [read_field_tlv]
    rw [if_neg (by simp [hdata]), if_neg hs16]
    simp only [cbcDecryptBlock, hL]
    rw [if_pos hL11]
    simp only [hrb]
    rw [List.drop_drop, show 16 + 16 * ((L + 4) / 16) = 16 * (1 + (L + 4) / 16) by ring]
  · rw [List.length_take, List.length_append, List.length_drop, hplain, hexlen]
    omega

/-- Counterexample to C2 as stated: at `L = 13` the reader consumes one
additional block (32 bytes in all) and leaves the third 16-byte block of
the 48-byte stream untouched, whereas `ceil((L+4)/16) = 2` additional
blocks would consume all 48 bytes and leave nothing. -/
theorem c2_counterexample :
    read_field_tlv idCrypto [] (List.replicate 16 0) c2s
      = .ok (some ⟨7, List.replicate 11 0 ++ [13, 0]⟩, List.replicate 16 0,
             List.replicate 16 1) ∧
    (13 + 4 + 15) / 16 = 2 ∧ c2s.drop (16 * (1 + 2)) = [] ∧
    List.replicate 16 1 ≠ ([] : Bytes) :=
  ⟨rfl, by decide, rfl, by decide⟩

/-- Witness for the amended C2 at a concrete input (`L = 13`). -/
theorem c2_witness :
    ∃ f st2, read_field_tlv idCrypto [] (List.replicate 16 0) c2s
        = .ok (some f, st2, c2s.drop (16 * (1 + (13 + 4) / 16))) ∧
      f.raw_value.length = 13 ∧
      f.raw_type
        = (xorBytes (idCrypto.ecbDec [] (c2s.take 16)) (List.replicate 16 0)).getD 4 0 ∧
      (13 + 4) / 16 = (13 - 11 + 15) / 16 :=
  c2_tlv_read_blocks idCrypto goodIdCrypto [] (List.replicate 16 0) c2s 13
    (by decide) (by decide) (by decide) (by decide) (by decide)

/-- Witness for C4 at a concrete input: the vault `wVault` carries
`f_iter = 1000`, yet the emitted count is at least the minimum. -/
theorem c4_witness : 262144 ≤ max wVault.f_iter write_iter :=
  (c4_min_iterations idCrypto wVault [] 0 [] (by decide)).2.1

/-- **C8.** `write_to_stream` leaves `f_tag`, `f_salt`, the in-memory
`f_iter`, `f_b1..f_b4`, `f_iv` and the records list unchanged; it mutates
only `header.raw_fields[LAST_SAVE]`, `header.raw_fields[WHAT_SAVED]`,
`f_sha_ps` and `f_hmac`.  In particular an `f_iter` below 262144 stays
below 262144 in memory even though the raised value goes to the stream. -/
theorem c8_write_frame (c : Crypto) (v : Vault) (pw : Bytes) (now : Nat) (ws : Bytes) :
    (write_to_stream c now ws v pw).1.f_tag = v.f_tag ∧
    (write_to_stream c now ws v pw).1.f_salt = v.f_salt ∧
    (write_to_stream c now ws v pw).1.f_iter = v.f_iter ∧
    (write_to_stream c now ws v pw).1.f_b1 = v.f_b1 ∧
    (write_to_stream c now ws v pw).1.f_b2 = v.f_b2 ∧
    (write_to_stream c now ws v pw).1.f_b3 = v.f_b3 ∧
    (write_to_stream c now ws v pw).1.f_b4 = v.f_b4 ∧
    (write_to_stream c now ws v pw).1.f_iv = v.f_iv ∧
    (write_to_stream c now ws v pw).1.records = v.records ∧
    (v.f_iter < 262144 → (write_to_stream c now ws v pw).1.f_iter < 262144) ∧
    (write_to_stream c now ws v pw).1.header = writeHeaderOf v now ws ∧
    (∀ k, k ≠ Headers.LAST_SAVE → k ≠ Headers.WHAT_SAVED →
      dictGet (write_to_stream c now ws v pw).1.header.raw_fields k
        = dictGet v.header.raw_fields k) ∧
    dictGet (write_to_stream c now ws v pw).1.header.raw_fields Headers.LAST_SAVE
      = some ⟨Headers.LAST_SAVE, packU32 now⟩ ∧
    dictGet (write_to_stream c now ws v pw).1.header.raw_fields Headers.WHAT_SAVED
      = some ⟨Headers.WHAT_SAVED, ws⟩ ∧
    (write_to_stream c now ws v pw).1.f_sha_ps = c.sha256 (writeStretched c v pw) ∧
    ∃ m, (write_to_stream c now ws v pw).1.f_hmac = c.hmacDigest (writeKeyL c v pw) m := by
  rcases h1 : write_field_seq c (writeKeyK c v pw) v.f_iv []
      ((writeHeaderOf v now ws).raw_fields.map Prod.snd) with ⟨hb, st1, hm1⟩
  rcases h2 : write_field_tlv c (writeKeyK c v pw) st1 (some eoeField) with ⟨he, st2⟩
  rcases h3 : write_records c (writeKeyK c v pw) st2 (hm1 ++ eoeField.raw_value) v.records
    with ⟨rb, st3, hm3⟩
  rw [write_to_stream_spec c now ws v pw hb st1 hm1 he st2 rb st3 hm3 h1 h2 h3]
  refine ⟨rfl, rfl, rfl, rfl, rfl, rfl, rfl, rfl, rfl, fun hlt => hlt, rfl, ?_, ?_, ?_,
    rfl, ⟨hm3, rfl⟩⟩
  · intro k h4 h6
    show dictGet (writeHeaderOf v now ws).raw_fields k = dictGet v.header.raw_fields k
    simp only [writeHeaderOf]
    rw [dictGet_dictInsert_ne _ _ _ _ h6, dictGet_dictInsert_ne _ _ _ _ h4]
  · show dictGet (writeHeaderOf v now ws).raw_fields Headers.LAST_SAVE
      = some ⟨Headers.LAST_SAVE, packU32 now⟩
    simp only [writeHeaderOf]
    rw [dictGet_dictInsert_ne _ _ _ _ (by decide), dictGet_dictInsert_self]
  · show dictGet (writeHeaderOf v now ws).raw_fields Headers.WHAT_SAVED
      = some ⟨Headers.WHAT_SAVED, ws⟩
    simp only [writeHeaderOf]
    rw [dictGet_dictInsert_self]

/-- **C1.** Round-trip: `_read_from_stream` applied with the same passphrase
to the byte stream produced by `write_to_stream` succeeds and yields a vault
with the same ordered list of records (identical raw fields) and the same
header, except that `LAST_SAVE` (0x04) and `WHAT_SAVED` (0x06) are refreshed
by the save; the random padding bytes are consumed and discarded by the
reader and never enter the in-memory state.  The hypotheses are the
invariants the program maintains on every vault it constructs (`vaultWF`),
a producer string whose length fits the 32-bit length field, and the absence
of a ciphertext block equal to the in-clear `END_OF_FILE` marker (the reader
compares raw blocks against the marker before decrypting them). -/
theorem c1_roundtrip (c : Crypto) (hc : GoodCrypto c) (v : Vault) (pw : Bytes)
    (now : Nat) (ws : Bytes) (hwf : vaultWF v) (hws : ws.length < 4294967296)
    (hcol : fieldBlocksOk c (writeKeyK c v pw) v.f_iv (writeAllFields v now ws)) :
    ∃ v', read_from_stream c (write_to_stream c now ws v pw).2 pw = .ok v' ∧
      v'.header = (write_to_stream c now ws v pw).1.header ∧
      v'.records.map Record.raw_fields = v.records.map Record.raw_fields ∧
      (∀ k, k ≠ Headers.LAST_SAVE → k ≠ Headers.WHAT_SAVED →
        dictGet v'.header.raw_fields k = dictGet v.header.raw_fields k) ∧
      dictGet v'.header.raw_fields Headers.LAST_SAVE
        = some ⟨Headers.LAST_SAVE, packU32 now⟩ ∧
      dictGet v'.header.raw_fields Headers.WHAT_SAVED
        = some ⟨Headers.WHAT_SAVED, ws⟩ := by
  obtain ⟨htag, hsalt, hiter, hb1l, hb2l, hb3l, hb4l, hivl, hhdrok, hrecok⟩ := hwf
  have hiterlt : writeIterOf v < 4294967296 := by
    simp only [writeIterOf, write_iter]
    omega
  rcases h1 : write_field_seq c (writeKeyK c v pw) v.f_iv []
      ((writeHeaderOf v now ws).raw_fields.map Prod.snd) with ⟨hb, st1, hm1⟩
  rcases h2 : write_field_tlv c (writeKeyK c v pw) st1 (some eoeField) with ⟨he, st2⟩
  rcases h3 : write_records c (writeKeyK c v pw) st2 (hm1 ++ eoeField.raw_value) v.records
    with ⟨rb, st3, hm3⟩
  have hw := write_to_stream_spec c now ws v pw hb st1 hm1 he st2 rb st3 hm3 h1 h2 h3
  have hst1 : st1.length = 16 := by
    have hh := (write_field_seq_facts c hc (writeKeyK c v pw)
      ((writeHeaderOf v now ws).raw_fields.map Prod.snd) v.f_iv [] hivl).1
    rw [h1] at hh
    exact hh
  have hhb : 16 * ((writeHeaderOf v now ws).raw_fields.map Prod.snd).length
      ≤ hb.length := by
    have hh := (write_field_seq_facts c hc (writeKeyK c v pw)
      ((writeHeaderOf v now ws).raw_fields.map Prod.snd) v.f_iv [] hivl).2
    rw [h1] at hh
    exact hh
  have hst2 : st2.length = 16 := by
    have hh := (write_field_tlv_len c hc (writeKeyK c v pw) st1 eoeField hst1).2
    rw [h2] at hh
    exact hh
  have h3p : write_records c (writeKeyK c v pw) st2 hm1 v.records = (rb, st3, hm3) := by
    simpa [eoeField] using h3
  have hseqflat : write_field_seq c (writeKeyK c v pw) st2 hm1
      ((v.records.map (fun r => r.raw_fields.map Prod.snd ++ [eoeField])).flatten)
      = (rb, st3, hm3) := by
    rw [← write_records_as_seq]
    exact h3p
  have hrb : 16 * ((v.records.map
        (fun r => r.raw_fields.map Prod.snd ++ [eoeField])).flatten).length
      ≤ rb.length := by
    have hh := (write_field_seq_facts c hc (writeKeyK c v pw)
      ((v.records.map (fun r => r.raw_fields.map Prod.snd ++ [eoeField])).flatten)
      st2 hm1 hst2).2
    rw [hseqflat] at hh
    exact hh
  have hdig32 : (c.hmacDigest (writeKeyL c v pw) hm3).length = 32 := hc.hmac_len _ _
  have hstream : (write_to_stream c now ws v pw).2
      = FILE_MAGIC ++ v.f_salt ++ packU32 (writeIterOf v)
          ++ c.sha256 (writeStretched c v pw) ++ v.f_b1 ++ v.f_b2 ++ v.f_b3 ++ v.f_b4
          ++ v.f_iv ++ (hb ++ (he ++ (rb ++ (END_OF_FILE
              ++ c.hmacDigest (writeKeyL c v pw) hm3)))) := by
    rw [hw, htag]
    simp [List.append_assoc]
  rw [hstream]
  rw [read_from_stream_of_parts c pw v.f_salt (packU32 (writeIterOf v))
    (c.sha256 (writeStretched c v pw)) v.f_b1 v.f_b2 v.f_b3 v.f_b4 v.f_iv
    (hb ++ (he ++ (rb ++ (END_OF_FILE ++ c.hmacDigest (writeKeyL c v pw) hm3))))
    hsalt (packU32_length _) (hc.sha_len _) hb1l hb2l hb3l hb4l hivl
    (by rw [unpackU32_packU32 _ hiterlt]; rfl)]
  have hKK : c.ecbDec (stretch_password c pw v.f_salt
        (unpackU32 (packU32 (writeIterOf v)))) v.f_b1
      ++ c.ecbDec (stretch_password c pw v.f_salt
        (unpackU32 (packU32 (writeIterOf v)))) v.f_b2
      = writeKeyK c v pw := by
    rw [unpackU32_packU32 _ hiterlt]
    rfl
  have hKL : c.ecbDec (stretch_password c pw v.f_salt
        (unpackU32 (packU32 (writeIterOf v)))) v.f_b3
      ++ c.ecbDec (stretch_password c pw v.f_salt
        (unpackU32 (packU32 (writeIterOf v)))) v.f_b4
      = writeKeyL c v pw := by
    rw [unpackU32_packU32 _ hiterlt]
    rfl
  rw [hKK, hKL]
  -- split the block-collision condition along the write
  have hcolA : fieldBlocksOk c (writeKeyK c v pw) v.f_iv
      ((writeHeaderOf v now ws).raw_fields.map Prod.snd ++ ([eoeField]
        ++ (v.records.map (fun r => r.raw_fields.map Prod.snd ++ [eoeField])).flatten)) := by
    have hx := hcol
    simp only [writeAllFields] at hx
    rwa [List.append_assoc] at hx
  obtain ⟨hcolH, hcolB⟩ := (fieldBlocksOk_append c (writeKeyK c v pw) _ _ v.f_iv []).mp hcolA
  simp only [h1] at hcolB
  obtain ⟨hcolE, hcolR⟩ :=
    (fieldBlocksOk_append c (writeKeyK c v pw) [eoeField] _ st1 hm1).mp hcolB
  have hcolE1 : (write_field_tlv c (writeKeyK c v pw) st1 (some eoeField)).1.take 16
      ≠ END_OF_FILE := by
    simp only [fieldBlocksOk, h2] at hcolE
    rw [h2]
    exact hcolE.1
  have hstEoeProj : (write_field_seq c (writeKeyK c v pw) st1 hm1 [eoeField]).2.1 = st2 := by
    simp [write_field_seq, h2]
  rw [hstEoeProj] at hcolR
  -- header reconstruction
  have hhdr2 := writeHeaderOf_dictOk v now ws hhdrok hws
  have hfold : (((writeHeaderOf v now ws).raw_fields.map Prod.snd).foldl
      Header.add_raw_field ⟨[]⟩) = writeHeaderOf v now ws := by
    have hx := foldl_header_add (writeHeaderOf v now ws).raw_fields [] hhdr2.1
      (fun p hp => (hhdr2.2 p hp).1) (fun p _ => by simp)
    simpa using hx
  -- the header loop
  have hcnt_le : ((writeHeaderOf v now ws).raw_fields.map Prod.snd).length
      ≤ (hb ++ (he ++ (rb ++ (END_OF_FILE
          ++ c.hmacDigest (writeKeyL c v pw) hm3)))).length := by
    rw [List.length_append]
    omega
  have hhl := readHeaderLoop_of_seq c hc (writeKeyK c v pw)
    ((writeHeaderOf v now ws).raw_fields.map Prod.snd) v.f_iv [] ⟨[]⟩
    (((hb ++ (he ++ (rb ++ (END_OF_FILE ++ c.hmacDigest (writeKeyL c v pw) hm3)))).length
      - ((writeHeaderOf v now ws).raw_fields.map Prod.snd).length) + 1)
    (he ++ (rb ++ (END_OF_FILE ++ c.hmacDigest (writeKeyL c v pw) hm3))) hivl
    (fun f hf => by
      rcases List.mem_map.mp hf with ⟨p, hp, rfl⟩
      exact (hhdr2.2 p hp).2) hcolH
  simp only [h1] at hhl
  have hhe := readHeaderLoop_eoe c hc (writeKeyK c v pw) st1 hm1 (writeHeaderOf v now ws)
    ((hb ++ (he ++ (rb ++ (END_OF_FILE ++ c.hmacDigest (writeKeyL c v pw) hm3)))).length
      - ((writeHeaderOf v now ws).raw_fields.map Prod.snd).length)
    (rb ++ (END_OF_FILE ++ c.hmacDigest (writeKeyL c v pw) hm3)) hst1 hcolE1
  simp only [h2] at hhe
  have headerRes : readHeaderLoop c (writeKeyK c v pw)
      ((hb ++ (he ++ (rb ++ (END_OF_FILE
        ++ c.hmacDigest (writeKeyL c v pw) hm3)))).length + 1) v.f_iv [] ⟨[]⟩
      (hb ++ (he ++ (rb ++ (END_OF_FILE ++ c.hmacDigest (writeKeyL c v pw) hm3))))
      = .ok (writeHeaderOf v now ws, st2, hm1,
          rb ++ (END_OF_FILE ++ c.hmacDigest (writeKeyL c v pw) hm3)) := by
    have hfuelH : (hb ++ (he ++ (rb ++ (END_OF_FILE
          ++ c.hmacDigest (writeKeyL c v pw) hm3)))).length + 1
        = (((hb ++ (he ++ (rb ++ (END_OF_FILE
              ++ c.hmacDigest (writeKeyL c v pw) hm3)))).length
            - ((writeHeaderOf v now ws).raw_fields.map Prod.snd).length) + 1)
          + ((writeHeaderOf v now ws).raw_fields.map Prod.snd).length := by omega
    rw [hfuelH, hhl, hfold, hhe]
  -- the records loop
  have hflat_le : ((v.records.map
        (fun r => r.raw_fields.map Prod.snd ++ [eoeField])).flatten).length
      ≤ (rb ++ (END_OF_FILE ++ c.hmacDigest (writeKeyL c v pw) hm3)).length := by
    rw [List.length_append]
    omega
  obtain ⟨rs2, hmap2, hrl⟩ := readRecordsLoop_of_records c hc (writeKeyK c v pw)
    v.records st2 hm1 []
    (((rb ++ (END_OF_FILE ++ c.hmacDigest (writeKeyL c v pw) hm3)).length
      - ((v.records.map
          (fun r => r.raw_fields.map Prod.snd ++ [eoeField])).flatten).length) + 1)
    (END_OF_FILE ++ c.hmacDigest (writeKeyL c v pw) hm3) hst2 hrecok hcolR
  simp only [h3p] at hrl
  have recsRes : readRecordsLoop c (writeKeyK c v pw)
      ((rb ++ (END_OF_FILE ++ c.hmacDigest (writeKeyL c v pw) hm3)).length + 1) st2 hm1
      [] {} (rb ++ (END_OF_FILE ++ c.hmacDigest (writeKeyL c v pw) hm3))
      = .ok ([] ++ rs2, st3, hm3, c.hmacDigest (writeKeyL c v pw) hm3) := by
    have hfuelR : (rb ++ (END_OF_FILE ++ c.hmacDigest (writeKeyL c v pw) hm3)).length + 1
        = (((rb ++ (END_OF_FILE ++ c.hmacDigest (writeKeyL c v pw) hm3)).length
            - ((v.records.map
                (fun r => r.raw_fields.map Prod.snd ++ [eoeField])).flatten).length) + 1)
          + ((v.records.map
              (fun r => r.raw_fields.map Prod.snd ++ [eoeField])).flatten).length := by
      omega
    rw [hfuelR, hrl]
    exact readRecordsLoop_eof c (writeKeyK c v pw) st3 hm3 ([] ++ rs2) {} _ _
  -- the field section
  have htake32 : (c.hmacDigest (writeKeyL c v pw) hm3).take 32
      = c.hmacDigest (writeKeyL c v pw) hm3 :=
    List.take_of_length_le (by omega)
  have hfields : read_from_stream_fields c (writeKeyK c v pw) (writeKeyL c v pw) v.f_iv
      (hb ++ (he ++ (rb ++ (END_OF_FILE ++ c.hmacDigest (writeKeyL c v pw) hm3))))
      = .ok (writeHeaderOf v now ws, [] ++ rs2, c.hmacDigest (writeKeyL c v pw) hm3,
          c.hmacDigest (writeKeyL c v pw) hm3) := by
    simp only [read_from_stream_fields, headerRes, recsRes, htake32]
    rw [if_neg (by simp)]
  rw [hfields]
  refine ⟨_, rfl, ?_, ?_, ?_, ?_, ?_⟩
  · rw [hw]
  · simpa using hmap2
  · intro k h4 h6
    show dictGet (writeHeaderOf v now ws).raw_fields k = dictGet v.header.raw_fields k
    simp only [writeHeaderOf]
    rw [dictGet_dictInsert_ne _ _ _ _ h6, dictGet_dictInsert_ne _ _ _ _ h4]
  · show dictGet (writeHeaderOf v now ws).raw_fields Headers.LAST_SAVE
      = some ⟨Headers.LAST_SAVE, packU32 now⟩
    simp only [writeHeaderOf]
    rw [dictGet_dictInsert_ne _ _ _ _ (by decide), dictGet_dictInsert_self]
  · show dictGet (writeHeaderOf v now ws).raw_fields Headers.WHAT_SAVED
      = some ⟨Headers.WHAT_SAVED, ws⟩
    simp only [writeHeaderOf]
    rw [dictGet_dictInsert_self]

/-- Witness for C1 at a concrete input: saving and re-opening `wVault` with
the trivial primitives succeeds and preserves the (empty) record list. -/
theorem c1_witness :
    ∃ v', read_from_stream idCrypto (write_to_stream idCrypto 0 [] wVault []).2 []
        = .ok v' ∧
      v'.records.map Record.raw_fields = wVault.records.map Record.raw_fields := by
  obtain ⟨v', hok, _, hrecs, _⟩ := c1_roundtrip idCrypto goodIdCrypto wVault [] 0 []
    (by decide) (by decide) (by decide)
  exact ⟨v', hok, hrecs⟩

/-- **C7 (amended).** Writing a vault whose records list is empty produces,
after the 152-byte envelope and the encrypted header fields, exactly one
encrypted `END_OF_ENTRY` field followed immediately by the in-clear 16-byte
`EOF_MARKER` and the 32-byte HMAC: the record-field section between the
header terminator and the marker is empty.  (The claim as stated omits the
encrypted header fields, which `write_to_stream` always emits between the
envelope and the `END_OF_ENTRY` terminator.) -/
theorem c7_empty_records (c : Crypto) (hc : GoodCrypto c) (v : Vault) (pw : Bytes)
    (now : Nat) (ws : Bytes) (hwf : vaultWF v) (hrecs : v.records = []) :
    ∃ hb st1 hm1,
      write_field_seq c (writeKeyK c v pw) v.f_iv []
          ((writeHeaderOf v now ws).raw_fields.map Prod.snd) = (hb, st1, hm1) ∧
      (write_to_stream c now ws v pw).2
        = v.f_tag ++ v.f_salt ++ packU32 (writeIterOf v)
          ++ c.sha256 (writeStretched c v pw)
          ++ v.f_b1 ++ v.f_b2 ++ v.f_b3 ++ v.f_b4 ++ v.f_iv ++ hb
          ++ (write_field_tlv c (writeKeyK c v pw) st1 (some eoeField)).1
          ++ END_OF_FILE ++ (write_to_stream c now ws v pw).1.f_hmac ∧
      (write_field_tlv c (writeKeyK c v pw) st1 (some eoeField)).1.length = 16 ∧
      (write_to_stream c now ws v pw).1.f_hmac.length = 32 ∧
      (v.f_tag ++ v.f_salt ++ packU32 (writeIterOf v)
        ++ c.sha256 (writeStretched c v pw)
        ++ v.f_b1 ++ v.f_b2 ++ v.f_b3 ++ v.f_b4 ++ v.f_iv).length = 152 := by
  obtain ⟨htag, hsalt, hiter, hb1l, hb2l, hb3l, hb4l, hivl, hhdrok, hrecok⟩ := hwf
  rcases h1 : write_field_seq c (writeKeyK c v pw) v.f_iv []
      ((writeHeaderOf v now ws).raw_fields.map Prod.snd) with ⟨hb, st1, hm1⟩
  rcases h2 : write_field_tlv c (writeKeyK c v pw) st1 (some eoeField) with ⟨he, st2⟩
  have h3 : write_records c (writeKeyK c v pw) st2 (hm1 ++ eoeField.raw_value) v.records
      = ([], st2, hm1 ++ eoeField.raw_value) := by
    rw [hrecs]
    rfl
  have hw := write_to_stream_spec c now ws v pw hb st1 hm1 he st2 [] st2
    (hm1 ++ eoeField.raw_value) h1 h2 h3
  have hst1 : st1.length = 16 := by
    have hh := (write_field_seq_facts c hc (writeKeyK c v pw)
      ((writeHeaderOf v now ws).raw_fields.map Prod.snd) v.f_iv [] hivl).1
    rw [h1] at hh
    exact hh
  have helen : he.length = 16 := by
    have hh := (write_field_tlv_len c hc (writeKeyK c v pw) st1 eoeField hst1).1
    rw [h2] at hh
    simpa [Field.raw_len, eoeField] using hh
  refine ⟨hb, st1, hm1, rfl, ?_, ?_, ?_, ?_⟩
  · rw [hw]
    rw [h2]
    simp [List.append_assoc]
  · rw [h2]
    exact helen
  · rw [hw]
    exact hc.hmac_len _ _
  · simp only [List.length_append, htag, packU32_length, hc.sha_len]
    rw [hsalt, hb1l, hb2l, hb3l, hb4l, hivl]
    rfl

/-- Counterexample to C7 as stated: for the concrete empty-records vault
`wVault` the bytes after the 152-byte envelope are not one encrypted
`END_OF_ENTRY` block followed by the marker and the HMAC — the encrypted
header fields (`LAST_SAVE`, `WHAT_SAVED`) sit in between. -/
theorem c7_counterexample :
    (write_to_stream idCrypto 0 [] wVault []).2
      ≠ wVault.f_tag ++ wVault.f_salt ++ packU32 (writeIterOf wVault)
        ++ idCrypto.sha256 (writeStretched idCrypto wVault [])
        ++ wVault.f_b1 ++ wVault.f_b2 ++ wVault.f_b3 ++ wVault.f_b4 ++ wVault.f_iv
        ++ (write_field_tlv idCrypto (writeKeyK idCrypto wVault [])
              wVault.f_iv (some eoeField)).1
        ++ END_OF_FILE ++ (write_to_stream idCrypto 0 [] wVault []).1.f_hmac := by
  decide

/-- Witness for the amended C7 at a concrete input. -/
theorem c7_witness :
    ∃ hb st1 hm1,
      write_field_seq idCrypto (writeKeyK idCrypto wVault []) wVault.f_iv []
          ((writeHeaderOf wVault 0 []).raw_fields.map Prod.snd) = (hb, st1, hm1) ∧
      (write_to_stream idCrypto 0 [] wVault []).2
        = wVault.f_tag ++ wVault.f_salt ++ packU32 (writeIterOf wVault)
          ++ idCrypto.sha256 (writeStretched idCrypto wVault [])
          ++ wVault.f_b1 ++ wVault.f_b2 ++ wVault.f_b3 ++ wVault.f_b4 ++ wVault.f_iv
          ++ hb
          ++ (write_field_tlv idCrypto (writeKeyK idCrypto wVault [])
                st1 (some eoeField)).1
          ++ END_OF_FILE ++ (write_to_stream idCrypto 0 [] wVault []).1.f_hmac ∧
      (write_field_tlv idCrypto (writeKeyK idCrypto wVault []) st1 (some eoeField)).1.length
        = 16 ∧
      (write_to_stream idCrypto 0 [] wVault []).1.f_hmac.length = 32 ∧
      (wVault.f_tag ++ wVault.f_salt ++ packU32 (writeIterOf wVault)
        ++ idCrypto.sha256 (writeStretched idCrypto wVault [])
        ++ wVault.f_b1 ++ wVault.f_b2 ++ wVault.f_b3 ++ wVault.f_b4
        ++ wVault.f_iv).length = 152 :=
  c7_empty_records idCrypto goodIdCrypto wVault [] 0 [] (by decide) rfl

/-- **C6.** `_read_from_stream` raises the bad-password error exactly when
`sha256(stretch(password, f_salt, f_iter))` differs from the 32-byte
`f_sha_ps` read from the stream.  The check happens before the CBC cipher
is built or any field is decrypted: the bytes `rest` beyond the 72-byte
prefix are universally quantified, so a mismatch yields the bad-password
error no matter what follows, and on a match the decoder proceeds past the
check and can never return the bad-password error later. -/
theorem c6_bad_password (c : Crypto) (pw salt iterB shaps rest : Bytes)
    (hsalt : salt.length = 32) (hiterB : iterB.length = 4) (hsha : shaps.length = 32) :
    (read_from_stream c (FILE_MAGIC ++ salt ++ iterB ++ shaps ++ rest) pw
        = .error .badPassword)
      ↔ shaps ≠ c.sha256 (stretch_password c pw salt (unpackU32 iterB)) := by
  have hassoc : FILE_MAGIC ++ salt ++ iterB ++ shaps ++ rest
      = FILE_MAGIC ++ (salt ++ (iterB ++ (shaps ++ rest))) := by
    simp [List.append_assoc]
  have h1 : (FILE_MAGIC ++ salt ++ iterB ++ shaps ++ rest).take 4 = FILE_MAGIC := by
    rw [hassoc]; exact List.take_left' rfl
  have h2 : (FILE_MAGIC ++ salt ++ iterB ++ shaps ++ rest).drop 4
      = salt ++ (iterB ++ (shaps ++ rest)) := by
    rw [hassoc]; exact List.drop_left' rfl
  simp only [read_from_stream, h1, h2]
  rw [List.take_left' hsalt, List.drop_left' hsalt]
  rw [List.take_left' hiterB, List.drop_left' hiterB]
  rw [List.take_left' hsha]
  rw [if_neg (by simp)]
  rw [if_neg (by simp [hiterB])]
  by_cases hcmp : shaps = c.sha256 (stretch_password c pw salt (unpackU32 iterB))
  · rw [if_neg (by simp [hcmp])]
    apply iff_of_false ?_ (by simp [hcmp])
    intro hcon
    split at hcon
    · rename_i e heq
      injection hcon with he
      subst he
      exact read_from_stream_fields_no_badPassword c _ _ _ _ heq
    · exact Except.noConfusion hcon
  · rw [if_pos hcmp]
    exact iff_of_true rfl hcmp

/-- Witness for C6 at a concrete input: with the trivial primitives, a
stream whose `f_sha_ps` bytes are all 1 fails the check (the digest is all
0), and the error is the bad-password error. -/
theorem c6_witness :
    read_from_stream idCrypto
        (FILE_MAGIC ++ List.replicate 32 0 ++ [0, 4, 0, 0] ++ List.replicate 32 1 ++ [])
        [] = .error .badPassword :=
  (c6_bad_password idCrypto [] (List.replicate 32 0) [0, 4, 0, 0] (List.replicate 32 1) []
    (by decide) (by decide) (by decide)).mpr (by decide)

/-- Witness for C8 at a concrete input: saving `wVault` (whose `f_iter` is
1000, below the minimum) leaves the in-memory `f_iter` below the minimum. -/
theorem c8_witness : (write_to_stream idCrypto 0 [] wVault []).1.f_iter < 262144 :=
  (c8_write_frame idCrypto wVault [] 0 []).2.2.2.2.2.2.2.2.2.1 (by decide)

/-- Witness for C10 at a concrete input: a 3-byte `LAST_MOD` field is stored
raw and the typed views stay at their defaults. -/
theorem c10_witness :
    ∃ r1, Record.add_raw_field {} ⟨12, [1, 2, 3]⟩ = .ok r1 ∧
      r1.raw_fields = dictInsert ([] : List (Nat × Field)) 12 ⟨12, [1, 2, 3]⟩ ∧
      dictGet r1.raw_fields 12 = some ⟨12, [1, 2, 3]⟩ ∧
      r1._last_mod = (({} : Record))._last_mod ∧ r1._created = (({} : Record))._created :=
  c10_malformed_timestamp {} ⟨12, [1, 2, 3]⟩ (Or.inl rfl) (by decide)

/-- **C3.** During both encode and decode the HMAC transcript grows by
exactly the raw value bytes of each non-terminator field, in stream order;
length, type and padding bytes never enter it.  On the write side the
field-writing loop's transcript is `hm ++` the concatenated values and the
stored `f_hmac` digests exactly `hmacMessage` (the concatenated values of
all emitted fields, terminators contributing their empty value); on the read
side one step of the header or record loop extends the transcript by exactly
`f.raw_value` for a non-terminator field and leaves it unchanged on the
`END_OF_ENTRY` terminator and the `END_OF_FILE` marker. -/
theorem c3_hmac_values_only (c : Crypto) (key st hm : Bytes) :
    (∀ fs : List Field,
        (write_field_seq c key st hm fs).2.2
          = hm ++ (fs.map Field.raw_value).flatten) ∧
    (∀ (v : Vault) (pw : Bytes) (now : Nat) (ws : Bytes),
        (write_to_stream c now ws v pw).1.f_hmac
          = c.hmacDigest (writeKeyL c v pw) (hmacMessage v now ws)) ∧
    (∀ (fuel : Nat) (hdr : Header) (s : Bytes) (f : Field) (st1 s1 : Bytes),
        read_field_tlv c key st s = .ok (some f, st1, s1) →
        f.raw_type ≠ END_OF_ENTRY →
        readHeaderLoop c key (fuel + 1) st hm hdr s
          = readHeaderLoop c key fuel st1 (hm ++ f.raw_value) (hdr.add_raw_field f) s1) ∧
    (∀ (fuel : Nat) (hdr : Header) (s st1 s1 : Bytes),
        read_field_tlv c key st s = .ok (none, st1, s1) →
        readHeaderLoop c key (fuel + 1) st hm hdr s = .ok (hdr, st1, hm, s1)) ∧
    (∀ (fuel : Nat) (hdr : Header) (s : Bytes) (f : Field) (st1 s1 : Bytes),
        read_field_tlv c key st s = .ok (some f, st1, s1) →
        f.raw_type = END_OF_ENTRY →
        readHeaderLoop c key (fuel + 1) st hm hdr s = .ok (hdr, st1, hm, s1)) ∧
    (∀ (fuel : Nat) (recs : List Record) (cur cur1 : Record) (s : Bytes) (f : Field)
        (st1 s1 : Bytes),
        read_field_tlv c key st s = .ok (some f, st1, s1) →
        f.raw_type ≠ END_OF_ENTRY →
        cur.add_raw_field f = .ok cur1 →
        readRecordsLoop c key (fuel + 1) st hm recs cur s
          = readRecordsLoop c key fuel st1 (hm ++ f.raw_value) recs cur1 s1) ∧
    (∀ (fuel : Nat) (recs : List Record) (cur : Record) (s : Bytes) (f : Field)
        (st1 s1 : Bytes),
        read_field_tlv c key st s = .ok (some f, st1, s1) →
        f.raw_type = END_OF_ENTRY →
        readRecordsLoop c key (fuel + 1) st hm recs cur s
          = readRecordsLoop c key fuel st1 hm (recs ++ [cur]) {} s1) := by
  refine ⟨?_, ?_, ?_, ?_, ?_, ?_, ?_⟩
  · intro fs
    exact write_field_seq_hm c key fs st hm
  · intro v pw now ws
    rcases h1 : write_field_seq c (writeKeyK c v pw) v.f_iv []
        ((writeHeaderOf v now ws).raw_fields.map Prod.snd) with ⟨hb, st1, hm1⟩
    rcases h2 : write_field_tlv c (writeKeyK c v pw) st1 (some eoeField) with ⟨he, st2⟩
    rcases h3 : write_records c (writeKeyK c v pw) st2 (hm1 ++ eoeField.raw_value) v.records
      with ⟨rb, st3, hm3⟩
    have hw := write_to_stream_spec c now ws v pw hb st1 hm1 he st2 rb st3 hm3 h1 h2 h3
    rw [hw]
    show c.hmacDigest (writeKeyL c v pw) hm3 = _
    have ha : hm1
        = [] ++ (((writeHeaderOf v now ws).raw_fields.map Prod.snd).map
            Field.raw_value).flatten := by
      have hh := write_field_seq_hm c (writeKeyK c v pw)
        ((writeHeaderOf v now ws).raw_fields.map Prod.snd) v.f_iv []
      rw [h1] at hh
      exact hh
    have hb3 : hm3 = (hm1 ++ eoeField.raw_value)
        ++ (((v.records.map (fun r => r.raw_fields.map Prod.snd ++ [eoeField])).flatten).map
            Field.raw_value).flatten := by
      have hh := write_field_seq_hm c (writeKeyK c v pw)
        ((v.records.map (fun r => r.raw_fields.map Prod.snd ++ [eoeField])).flatten)
        st2 (hm1 ++ eoeField.raw_value)
      rw [← write_records_as_seq, h3] at hh
      exact hh
    rw [hb3, ha]
    simp [hmacMessage, writeAllFields, List.map_append, List.flatten_append, eoeField,
      List.append_assoc]
  · intro fuel hdr s f st1 s1 hf hne
    simp only [readHeaderLoop, hf]
    rw [if_neg hne]
  · intro fuel hdr s st1 s1 hf
    simp only [readHeaderLoop, hf]
  · intro fuel hdr s f st1 s1 hf hft
    simp only [readHeaderLoop, hf]
    rw [if_pos hft]
  · intro fuel recs cur cur1 s f st1 s1 hf hne hadd
    simp only [readRecordsLoop, hf]
    rw [if_neg hne]
    simp only [hadd]
  · intro fuel recs cur s f st1 s1 hf hft
    simp only [readRecordsLoop, hf]
    rw [if_pos hft]

/-- Witness for C3 at concrete inputs: the write-side transcript of one
`TITLE` field is exactly its value, `wVault`'s stored digest covers exactly
`hmacMessage`, and one step of each reading loop over the concrete block
`c3b` extends the transcript by exactly the decoded value `[1, 2, 3, 4, 5]`. -/
theorem c3_witness :
    (write_field_seq idCrypto [] (List.replicate 16 0) []
        [⟨Fields.TITLE, [65, 66]⟩]).2.2
      = [] ++ (([⟨Fields.TITLE, [65, 66]⟩] : List Field).map Field.raw_value).flatten ∧
    (write_to_stream idCrypto 0 [] wVault []).1.f_hmac
      = idCrypto.hmacDigest (writeKeyL idCrypto wVault []) (hmacMessage wVault 0 []) ∧
    readHeaderLoop idCrypto [] 1 (List.replicate 16 0) [] ⟨[]⟩ c3b
      = readHeaderLoop idCrypto [] 0 c3b ([] ++ [1, 2, 3, 4, 5])
          (Header.add_raw_field ⟨[]⟩ ⟨Fields.TITLE, [1, 2, 3, 4, 5]⟩) [] ∧
    readRecordsLoop idCrypto [] 1 (List.replicate 16 0) [] [] {} c3b
      = readRecordsLoop idCrypto [] 0 c3b ([] ++ [1, 2, 3, 4, 5]) [] c3rec [] := by
  obtain ⟨hseq, hwrite, hhdr, _, _, hrec, _⟩ :=
    c3_hmac_values_only idCrypto [] (List.replicate 16 0) []
  exact ⟨hseq [⟨Fields.TITLE, [65, 66]⟩], hwrite wVault [] 0 [],
    hhdr 0 ⟨[]⟩ c3b ⟨Fields.TITLE, [1, 2, 3, 4, 5]⟩ c3b [] rfl (by decide),
    hrec 0 [] {} c3rec c3b ⟨Fields.TITLE, [1, 2, 3, 4, 5]⟩ c3b [] rfl (by decide) rfl⟩

end Loxodo
